import Mathlib

/-!
Shallow embedding of the poetry analysis pipeline from
poetryanalysis/poetics.py of the PoetryAnalysis repository:
stress extraction, rhyme detection, rhyme scheme construction,
nearest-pattern classification by edit distance, and the final
form rule cascade, together with theorems checking the
specification claims against this embedding.

External collaborators are modelled as parameters: the CMU
pronunciation dictionary is a function from words to an optional
pronunciation list, the syllable counting fallback is a function
from words to integers, and the external edit distance routine is
the standard Levenshtein distance, computed here row by row.

Fallible code paths (index errors, division by zero, maximum of
an empty collection) are modelled with Option.
-/

namespace PoetryAnalysis

/-- One pronunciation: an ordered list of phoneme symbols. -/
abbrev Pron := List String

/-- The CMU dictionary collaborator: a word maps to its list of
pronunciations, or to none when the word is absent. -/
abbrev Cmu := String → Option (List Pron)

/-- The syllable count collaborator (count_syllables). -/
abbrev Csyl := String → Int

/-- Python str.lower, modelled character by character (the
dictionary keys are plain ascii). -/
def pyLower (s : String) : String :=
  String.mk (s.toList.map Char.toLower)

/-- Python string comparison: lexicographic on code points, a
proper prefix being smaller. -/
def listLt : List Char → List Char → Bool
  | [], [] => false
  | [], _ :: _ => true
  | _ :: _, [] => false
  | a :: as, b :: bs => if a < b then true else if a = b then listLt as bs else false

/-- Python comparison of two strings. -/
def pyStrLt (a b : String) : Bool := listLt a.toList b.toList

/-- get_syllables: dictionary lookup, case insensitive; a miss
yields the sentinel list containing one empty pronunciation. -/
def getSyllables (cmu : Cmu) (word : String) : List Pron :=
  match cmu (pyLower word) with
  | some ps => ps
  | none => [[]]

/-- Python string repetition: s * k, where a non-positive count
gives the empty string. -/
def pyRepeat (s : String) (k : Int) : String :=
  String.join (List.replicate k.toNat s)

/-- stress_from_syllables: join the phoneme symbols, keep the
digit characters and collapse secondary stress 2 into 1. -/
def stressFromSyllables (ps : Pron) : String :=
  String.mk (((String.join ps).toList.filter Char.isDigit).map
    (fun c => if c = '2' then '1' else c))

/-- Stable insertion: the element goes before the first list entry
that is not strictly below it, so equal keys keep their original
relative order, as the stable Python list sort does. -/
def pyInsert (lt : String → String → Bool) (x : String) : List String → List String
  | [] => [x]
  | y :: ys => if lt y x then y :: pyInsert lt x ys else x :: y :: ys

/-- Stable insertion sort modelling the stable Python list sort. -/
def pySort (lt : String → String → Bool) : List String → List String
  | [] => []
  | x :: xs => pyInsert lt x (pySort lt xs)

/-- stress: the binary stress string of a word.  The primary
variant (and any unrecognized variant) uses the first listed
pronunciation.  The min and max variants sort all stress strings
lexically and then, stably, by length, and pick the first or the
last.  (The source also has an "all" variant returning the whole
sorted list; no claim concerns it, and in this String valued model
it falls through to the max behaviour.)  On an empty pronunciation
list the out-of-dictionary fallback stresses the first syllable
only. -/
def stress (cmu : Cmu) (csyl : Csyl) (word : String) (variant : String) : String :=
  let sylls := getSyllables cmu word
  if sylls ≠ [] then
    if variant = "primary" ∨ variant ∉ ["all", "min", "max"] then
      stressFromSyllables (sylls.headD [])
    else
      let aps := pySort (fun a b => a.length < b.length)
        (pySort pyStrLt (sylls.map stressFromSyllables))
      if variant = "min" then aps.headD "" else aps.getLastD ""
  else
    "1" ++ pyRepeat "0" (csyl word - 1)

/-- scanscion: for each line, the primary stress string of each
nonempty word token. -/
def scanscion (cmu : Cmu) (csyl : Csyl) (poem : List (List String)) :
    List (List String) :=
  poem.map (fun line =>
    (line.filter (fun w => w ≠ "")).map (fun w => stress cmu csyl w "primary"))

/-- A phoneme symbol counts as a vowel when it contains a stress
digit. -/
def isVowelSym (s : String) : Bool := s.toList.any Char.isDigit

/-- num_vowels of a pronunciation. -/
def numVowels (ps : Pron) : Nat := (ps.filter isVowelSym).length

/-- Backward scan of get_nth_last_vowel: the list is the reversed
phoneme list, cnt the vowels counted so far, i the current python
offset from the end (python index -i).  Returns some i when the
count reaches n, none when the scan runs out. -/
def gnlvGo (n : Int) : List String → Int → Nat → Option Nat
  | [], _, _ => none
  | x :: xs, cnt, i =>
    if isVowelSym x then
      if cnt + 1 = n then some i else gnlvGo n xs (cnt + 1) (i + 1)
    else gnlvGo n xs cnt (i + 1)

/-- get_nth_last_vowel: some i stands for the python index -i of
the n-th vowel counted from the end; none when there are fewer
than n vowels (or n is not positive). -/
def getNthLastVowel (ps : Pron) (n : Int) : Option Nat :=
  gnlvGo n ps.reverse 0 1

/-- The python slice phones[vowel_idx:]: a none index (python
None) yields the whole list, some i is the slice from index -i,
which for i beyond the length is again the whole list. -/
def pySuffix (ps : Pron) (idx : Option Nat) : Pron :=
  match idx with
  | none => ps
  | some i => ps.drop (ps.length - i)

/-- The CMU workaround table: the phoneme ER0 is treated as its
bare consonant form R. -/
def replaceSyllables (ps : Pron) : Pron :=
  ps.map (fun s => if s = "ER0" then "R" else s)

/-- The outer loop of rhymes over the pronunciations of the first
word, threading the mutable level variable, which the source
lowers to the vowel count of the current pronunciation whenever
that count is smaller. -/
def rhymesGo (prons2 : List Pron) : List Pron → Int → Bool
  | [], _ => false
  | s :: rest, lvl =>
    let s' := replaceSyllables s
    let lvl' := if (numVowels s' : Int) < lvl then (numVowels s' : Int) else lvl
    let idx := getNthLastVowel s' lvl'
    if prons2.any (fun s2 => pySuffix s' idx = pySuffix (replaceSyllables s2) idx) then
      true
    else rhymesGo prons2 rest lvl'

/-- rhymes: two words rhyme when some pronunciation pair agrees on
the trailing slice starting at the level-th last vowel of the
first pronunciation. -/
def rhymes (cmu : Cmu) (w1 w2 : String) (level : Int) : Bool :=
  let p1 := getSyllables cmu w1
  let p2 := getSyllables cmu w2
  if p1 = [] ∨ p2 = [] then false
  else rhymesGo p2 p1 level

/-- The list ascii_lowercase of rhyme group letters. -/
def rhymeLetters : List Char := "abcdefghijklmnopqrstuvwxyz".toList

/-- Indexing rhyme_notation[currrhyme]: none models the index
error past the 26 letters.  (A python negative index would wrap
instead, but the counter is always nonnegative at access time.) -/
def letterAt (i : Int) : Option Char :=
  if i < 0 then none else rhymeLetters.get? i.toNat

/-- The last element of a line, poem_line[-1]; lines are nonempty
by the tokenizer contract (a blank line is the single empty
token). -/
def lastWord (line : List String) : String :=
  (line.getLast?).getD ""

/-- One iteration of the future-line scan of rhyme_scheme.  The
state is the scheme, the current rhyme counter and the matched
flag for the present base line. -/
def innerStep (cmu : Cmu) (poem : List (List String)) (lineno : Nat)
    (st : List Char × Int × Bool) (fut : Nat) : Option (List Char × Int × Bool) :=
  if st.1.getD fut 'X' = 'X' then
    if poem.getD lineno [] = [""] then
      some (st.1.set lineno ' ', st.2.1, st.2.2)
    else if rhymes cmu (lastWord (poem.getD lineno [])) (lastWord (poem.getD fut [])) 2 then
      let currrhyme' := if st.2.2 then st.2.1 else st.2.1 + 1
      match letterAt currrhyme' with
      | none => none
      | some c =>
        let c' := if poem.getD lineno [] = poem.getD fut [] then c.toUpper else c
        some ((st.1.set lineno c').set fut c', currrhyme', true)
    else some st
  else some st

/-- The future-line scan of rhyme_scheme for one base line, over
the list of future line numbers. -/
def innerLoop (cmu : Cmu) (poem : List (List String)) (lineno : Nat) :
    List Nat → List Char × Int × Bool → Option (List Char × Int × Bool)
  | [], st => some st
  | fut :: rest, st =>
    match innerStep cmu poem lineno st fut with
    | none => none
    | some st' => innerLoop cmu poem lineno rest st'

/-- Processing one base line of rhyme_scheme: scan all later
lines with a fresh matched flag. -/
def outerStep (cmu : Cmu) (poem : List (List String))
    (st : List Char × Int) (lineno : Nat) : Option (List Char × Int) :=
  match innerLoop cmu poem lineno
      (List.range' (lineno + 1) (poem.length - (lineno + 1))) (st.1, st.2, false) with
  | none => none
  | some (scheme, currrhyme, _) => some (scheme, currrhyme)

/-- The outer loop of rhyme_scheme over a list of base line
numbers. -/
def outerLoop (cmu : Cmu) (poem : List (List String)) :
    List Nat → List Char × Int → Option (List Char × Int)
  | [], st => some st
  | l :: rest, st =>
    match outerStep cmu poem st l with
    | none => none
    | some st' => outerLoop cmu poem rest st'

/-- The rhyme_scheme state after processing the first k base
lines, starting from the all-X scheme and counter -1. -/
def schemeUpTo (cmu : Cmu) (poem : List (List String)) (k : Nat) :
    Option (List Char × Int) :=
  outerLoop cmu poem (List.range k) (List.replicate poem.length 'X', -1)

/-- rhyme_scheme: the final scheme, one character per line; none
models the index error when more than 26 rhyme groups appear. -/
def rhymeScheme (cmu : Cmu) (poem : List (List String)) : Option (List Char) :=
  (schemeUpTo cmu poem poem.length).map (·.1)

/-- stanza_lengths fold over the lines: the emitted counts so far
and the running count of nonblank lines. -/
def stanzaGo : List (List String) → List String → Nat → List String
  | [], acc, i => if i ≠ 0 then acc ++ [toString i] else acc
  | line :: rest, acc, i =>
    if line ≠ [""] then stanzaGo rest acc (i + 1)
    else stanzaGo rest (acc ++ [toString i]) 0

/-- stanza_lengths: comma separated counts of nonblank lines
between blank lines. -/
def stanzaLengths (poem : List (List String)) : String :=
  String.intercalate "," (stanzaGo poem [] 0)

/-- One row update of the Levenshtein distance table: c is the
current character of the first string, the first list the rest of
the second string, the second list the previous row from the
diagonal cell on, and prev the entry just computed in this row. -/
def levRowGo (c : Char) : List Char → List Nat → Nat → List Nat
  | [], _, _ => []
  | tc :: ts, pr, prev =>
    match pr with
    | [] => []
    | pd :: prest =>
      let above := prest.headD 0
      let cur := min (min (above + 1) (prev + 1)) (pd + if c = tc then 0 else 1)
      cur :: levRowGo c ts prest cur

/-- Levenshtein edit distance between two character lists,
computed row by row; this models the external distance routine. -/
def levDist (s t : List Char) : Nat :=
  (s.foldl
    (fun pr c => (pr.headD 0 + 1) :: levRowGo c t pr (pr.headD 0 + 1))
    (List.range (t.length + 1))).getLastD 0

/-- The external distance collaborator on strings. -/
def pyDistance (s t : String) : Nat := levDist s.toList t.toList

/-- Cyclic expansion of a candidate pattern to the observed
length n: (v * (n // len(v) + 1))[:n].  Only called on nonempty
patterns. -/
def expandPat (n : Nat) (v : String) : String :=
  (String.join (List.replicate (n / v.length + 1) v)).take n

/-- The distance of a candidate pattern after the length
normalization of the classifier. -/
def normDist (s v : String) : Nat :=
  if v.length = s.length then pyDistance s v else pyDistance s (expandPat s.length v)

/-- Store a key under a distance in the distances table:
overwrite the entry holding that distance, or append a new one. -/
def dSet (ds : List (Nat × String)) (d : Nat) (k : String) : List (Nat × String) :=
  if ds.any (fun p => p.1 = d) then
    ds.map (fun p => if p.1 = d then (d, k) else p)
  else ds ++ [(d, k)]

/-- Lookup of a distance key in the distances table. -/
def dGet (ds : List (Nat × String)) (d : Nat) : Option String :=
  (ds.find? (fun p => p.1 = d)).map (·.2)

/-- One candidate step of the classifier loop.  A pattern whose
length differs from the observed string is cyclically expanded
and, at an already recorded distance, discarded; an empty pattern
needing expansion is the division by zero of the source, modelled
as none. -/
def levStep (s : String) (st : Option (List (Nat × String)))
    (kv : String × String) : Option (List (Nat × String)) :=
  match st with
  | none => none
  | some ds =>
    if kv.2.length = s.length then
      some (dSet ds (pyDistance s kv.2) kv.1)
    else if kv.2.length = 0 then
      none
    else
      let d := pyDistance s (expandPat s.length kv.2)
      if ds.any (fun p => p.1 = d) then some ds else some (dSet ds d kv.1)

/-- The minimum of the recorded distance values. -/
def minKey : List (Nat × String) → Option Nat
  | [] => none
  | p :: ps =>
    match minKey ps with
    | none => some p.1
    | some m => some (min p.1 m)

/-- levenshtein: the nearest-candidate classifier.  none models
the failure modes of the source (an empty catalog, or an empty
pattern that needs expansion). -/
def levenshtein (s : String) (cands : List (String × String)) : Option String :=
  match cands.foldl (levStep s) (some []) with
  | none => none
  | some ds =>
    match minKey ds with
    | none => none
    | some m => dGet ds m

/-- The meter catalog, in source order. -/
def POSSIBLE_METERS : List (String × String) :=
  [("iambic trimeter", "010101"),
   ("iambic tetrameter", "01010101"),
   ("iambic pentameter", "0101010101"),
   ("trochaic tetrameter", "10101010"),
   ("trochaic pentameter", "1010101010")]

/-- The rhyme catalog, in source order. -/
def POSSIBLE_RHYMES : List (String × String) :=
  [("couplets", "aabbccddeeff"),
   ("alternate rhyme", "ababcdcdefefghgh"),
   ("enclosed rhyme", "abbacddceffe"),
   ("rima", "ababcbcdcdedefefgfghg"),
   ("rondeau rhyme", "aabbaaabCaabbaC"),
   ("shakespearean sonnet", "ababcdcdefefgg"),
   ("limerick", "aabba"),
   ("no rhyme", "XXXX")]

/-- The stanza catalog, in source order. -/
def POSSIBLE_STANZAS : List (String × String) :=
  [("sonnet", "14,"),
   ("cinquains", "5,"),
   ("quatrains", "4,"),
   ("tercets", "3,")]

/-- Strict comparison of python pairs (count, name). -/
def lexGt (x y : Nat × String) : Bool :=
  y.1 < x.1 || (x.1 = y.1 && pyStrLt y.2 x.2)

/-- Python max over a list of (count, name) pairs: keep the
current element unless a later one is strictly greater; none on
an empty list models the ValueError of the source. -/
def pyMaxPair : List (Nat × String) → Option (Nat × String)
  | [] => none
  | p :: ps => some (ps.foldl (fun a x => if lexGt x a then x else a) p)

/-- The joined per-line stress strings of the poem, skipping
lines that produced no stress content. -/
def joinedLines (cmu : Cmu) (csyl : Csyl) (poem : List (List String)) :
    List String :=
  ((scanscion cmu csyl poem).filter (fun l => l ≠ [])).map String.join

/-- Apply an optional function to every element, propagating a
failure. -/
def optionMap (f : String → Option String) : List String → Option (List String)
  | [] => some []
  | x :: xs =>
    match f x, optionMap f xs with
    | some y, some ys => some (y :: ys)
    | _, _ => none

/-- The per-line nearest meter results. -/
def perLineMeters (cmu : Cmu) (csyl : Csyl) (poem : List (List String)) :
    Option (List String) :=
  optionMap (fun l => levenshtein l POSSIBLE_METERS) (joinedLines cmu csyl poem)

/-- guess_meter: joined lines, their number, their lengths, and
the most frequent per-line meter with the python max tie break. -/
def guessMeter (cmu : Cmu) (csyl : Csyl) (poem : List (List String)) :
    Option (List String × Nat × List Nat × String) :=
  match perLineMeters cmu csyl poem with
  | none => none
  | some meters =>
    match pyMaxPair ((meters.dedup).map (fun m => (meters.count m, m))) with
    | none => none
    | some best =>
      let joined := joinedLines cmu csyl poem
      some (joined, joined.length, joined.map String.length, best.2)

/-- guess_rhyme_type: the joined scheme string and the nearest
rhyme catalog key of the scheme with blanks removed. -/
def guessRhymeType (cmu : Cmu) (poem : List (List String)) :
    Option (String × String) :=
  match rhymeScheme cmu poem with
  | none => none
  | some s =>
    let joined := String.mk s
    let noBlanks := String.mk (s.filter (fun c => c ≠ ' '))
    match levenshtein noBlanks POSSIBLE_RHYMES with
    | none => none
    | some r => some (joined, r)

/-- guess_stanza_type: the stanza length string and its nearest
stanza catalog key. -/
def guessStanzaType (poem : List (List String)) : Option (String × String) :=
  match levenshtein (stanzaLengths poem) POSSIBLE_STANZAS with
  | none => none
  | some g => some (stanzaLengths poem, g)

/-- within_ranges: every line property lies inside the closed
interval given by the first two components of its range entry.
The source builds each range as a python tuple; the ottava rima
call site passes the single 22-tuple (10, 12) * 11, modelled as
one flat list. -/
def withinRanges (props : List Nat) (ranges : List (List Nat)) : Bool :=
  (List.range ranges.length).all (fun i =>
    decide ((ranges.getD i []).getD 0 0 ≤ props.getD i 0) &&
    decide (props.getD i 0 ≤ (ranges.getD i []).getD 1 0))

/-- The form rule cascade of guess_form, first match wins.  The
fourteen line branch keeps the python operator precedence: the
meter test binds only to the shakespearean sonnet alternative. -/
def formCascade (numLines : Nat) (lineLengths : List Nat)
    (meter rhyme : String) : String :=
  if numLines = 3 ∧ withinRanges lineLengths [[4, 6], [6, 8], [4, 6]] then
    "haiku"
  else if numLines = 5 ∧ lineLengths = [1, 2, 3, 4, 10] then
    "tetractys"
  else if numLines = 5 ∧
      withinRanges lineLengths [[8, 11], [8, 11], [5, 7], [5, 7], [8, 11]] then
    "limerick"
  else if numLines = 5 ∧
      withinRanges lineLengths [[4, 6], [6, 8], [4, 6], [6, 8], [6, 8]] then
    "tanka"
  else if numLines = 5 ∧ rhyme = "no rhyme" then
    "cinquain"
  else if numLines = 8 ∧
      withinRanges lineLengths [List.flatten (List.replicate 11 [10, 12])] ∧
      rhyme = "rima" then
    "ottava rima"
  else if numLines = 14 ∧
      ((meter = "iambic pentameter" ∧ rhyme = "shakespearean sonnet") ∨
        rhyme = "alternate rhyme") then
    "Shakespearean sonnet"
  else if numLines = 14 then
    "sonnet with unusual meter"
  else if numLines = 15 then
    "rondeau"
  else if rhyme = "alternate rhyme" ∧ meter = "iambic tetrameter" then
    "ballad stanza"
  else if meter = "iambic pentameter" then
    if rhyme = "couplets" ∨ rhyme = "shakespearean sonnet" then
      "heroic couplets"
    else if rhyme = "alternate rhyme" then
      "Sicilian quatrain"
    else "blank verse"
  else "unknown form"

/-- guess_form: run the three guessers and apply the rule
cascade; any guesser failure propagates. -/
def guessForm (cmu : Cmu) (csyl : Csyl) (poem : List (List String)) :
    Option String :=
  match guessMeter cmu csyl poem with
  | none => none
  | some (_, numLines, lineLengths, meter) =>
    match guessRhymeType cmu poem with
    | none => none
    | some (_, rhyme) =>
      match guessStanzaType poem with
      | none => none
      | some _ => some (formCascade numLines lineLengths meter rhyme)

/-! Concrete collaborator instances and poems used for witnesses
and counterexamples.  The pronunciations follow the CMU phoneme
style used by the dictionary data. -/

/-- The everywhere-missing dictionary. -/
def cmuNone : Cmu := fun _ => none

/-- The constant syllable counter. -/
def csylOne : Csyl := fun _ => 1

/-- A small dictionary with the CMU pronunciations of old and
behold. -/
def cmu3 : Cmu := fun w =>
  if w = "old" then some [["OW1", "L", "D"]]
  else if w = "behold" then some [["B", "IH0", "HH", "OW1", "L", "D"]]
  else none

/-- Fourteen monosyllabic words in six rhyme pairs plus two
unrhymed words. -/
def cmuC1 : Cmu := fun w =>
  if w = "kate" then some [["K", "EY1", "T"]]
  else if w = "beep" then some [["B", "IY1", "P"]]
  else if w = "late" then some [["L", "EY1", "T"]]
  else if w = "deep" then some [["D", "IY1", "P"]]
  else if w = "moze" then some [["M", "OW1", "Z"]]
  else if w = "nuke" then some [["N", "UW1", "K"]]
  else if w = "pose" then some [["P", "OW1", "Z"]]
  else if w = "rook" then some [["R", "UW1", "K"]]
  else if w = "san" then some [["S", "AE1", "N"]]
  else if w = "tell" then some [["T", "EH1", "L"]]
  else if w = "van" then some [["V", "AE1", "N"]]
  else if w = "well" then some [["W", "EH1", "L"]]
  else if w = "pock" then some [["P", "AA1", "K"]]
  else if w = "team" then some [["T", "IY1", "M"]]
  else none

/-- Fourteen nonblank one-word lines in the scheme ababcdcdefef
followed by two unrhymed lines, then a trailing blank line. -/
def poemC1 : List (List String) :=
  [["kate"], ["beep"], ["late"], ["deep"],
   ["moze"], ["nuke"], ["pose"], ["rook"],
   ["san"], ["tell"], ["van"], ["well"],
   ["pock"], ["team"], [""]]

/-- Words of an eight line poem in the rhyme scheme ababcbcX,
with a ten-vowel first-line word. -/
def cmuC8 : Cmu := fun w =>
  if w = "kate" then some [["K", "EY1", "T"]]
  else if w = "beep" then some [["B", "IY1", "P"]]
  else if w = "late" then some [["L", "EY1", "T"]]
  else if w = "deep" then some [["D", "IY1", "P"]]
  else if w = "moze" then some [["M", "OW1", "Z"]]
  else if w = "jeep" then some [["JH", "IY1", "P"]]
  else if w = "pose" then some [["P", "OW1", "Z"]]
  else if w = "team" then some [["T", "IY1", "M"]]
  else if w = "longword" then
    some [["AH0", "AH1", "AH0", "AH1", "AH0", "AH1", "AH0", "AH1", "AH0", "AH1"]]
  else none

/-- Eight nonblank lines whose rhyme scheme classifies as rima
and whose first line has eleven stress characters. -/
def poemC8 : List (List String) :=
  [["longword", "kate"], ["beep"], ["late"], ["deep"],
   ["moze"], ["jeep"], ["pose"], ["team"]]

/-- A dictionary where a word is pronounced as the single vowel
phoneme built from its first character, so two words rhyme
exactly when they share that character. -/
def cmuC7 : Cmu := fun w => some [[w.take 1 ++ "1"]]

/-- Fifty-four one-word lines forming twenty-seven disjoint rhyme
pairs, one more than the rhyme letter alphabet holds. -/
def poemC7 : List (List String) :=
  (("abcdefghijklmnopqrstuvwxyz0".toList.map Char.toString).map
    (fun g => [[g ++ "a"], [g ++ "b"]])).flatten

/-! Helper lemmas about the distances table of the classifier. -/

lemma mem_dSet {ds : List (Nat × String)} {d : Nat} {k : String} {p : Nat × String}
    (hp : p ∈ dSet ds d k) : p ∈ ds ∨ p = (d, k) := by
  unfold dSet at hp
  split at hp
  · rcases List.mem_map.mp hp with ⟨q, hq, hqe⟩
    by_cases hd : q.1 = d
    · right
      rw [if_pos hd] at hqe
      exact hqe.symm
    · left
      rw [if_neg hd] at hqe
      exact hqe ▸ hq
  · rcases List.mem_append.mp hp with h | h
    · exact Or.inl h
    · exact Or.inr (List.mem_singleton.mp h)

lemma dSet_exists_key (ds : List (Nat × String)) (d : Nat) (k : String) :
    ∃ p ∈ dSet ds d k, p.1 = d := by
  unfold dSet
  by_cases h : ds.any (fun q => q.1 = d)
  · simp only [List.any_eq_true, decide_eq_true_eq] at h
    obtain ⟨q, hq, hqd⟩ := h
    refine ⟨(d, k), ?_, rfl⟩
    simp only [List.any_eq_true, decide_eq_true_eq]
    rw [if_pos]
    · exact List.mem_map.mpr ⟨q, hq, by simp [hqd]⟩
    · exact ⟨q, hq, by simp [hqd]⟩
  · refine ⟨(d, k), ?_, rfl⟩
    rw [if_neg h]
    simp

lemma dSet_preserves_keys {ds : List (Nat × String)} (d : Nat) (k : String)
    {p : Nat × String} (hp : p ∈ ds) : ∃ q ∈ dSet ds d k, q.1 = p.1 := by
  unfold dSet
  by_cases h : ds.any (fun q => q.1 = d)
  · rw [if_pos h]
    by_cases hd : p.1 = d
    · exact ⟨(d, k), List.mem_map.mpr ⟨p, hp, by simp [hd]⟩, by simp [hd]⟩
    · exact ⟨p, List.mem_map.mpr ⟨p, hp, by simp [hd]⟩, rfl⟩
  · rw [if_neg h]
    exact ⟨p, by simp [hp], rfl⟩

lemma levFold_inv (s : String) :
    ∀ (rest : List (String × String)) (ds : List (Nat × String)),
      (∀ kv ∈ rest, kv.2 ≠ "") →
      ∃ dsF, List.foldl (levStep s) (some ds) rest = some dsF ∧
        (∀ p ∈ dsF, p ∈ ds ∨ ∃ kv ∈ rest, kv.1 = p.2 ∧ normDist s kv.2 = p.1) ∧
        (∀ kv ∈ rest, ∃ p ∈ dsF, p.1 = normDist s kv.2) ∧
        (∀ p ∈ ds, ∃ q ∈ dsF, q.1 = p.1) := by
  intro rest
  induction rest with
  | nil =>
    intro ds _
    exact ⟨ds, rfl, fun p hp => Or.inl hp, by simp, fun p hp => ⟨p, hp, rfl⟩⟩
  | cons kv rest ih =>
    intro ds hv
    have hkv : kv.2 ≠ "" := hv kv (by simp)
    have hlen0 : ¬ kv.2.length = 0 := by
      intro h
      apply hkv
      cases hdat : kv.2 with
      | mk data =>
        rw [hdat] at h
        cases data with
        | nil => rfl
        | cons c cs => simp [String.length] at h
    have hrest : ∀ kv' ∈ rest, kv'.2 ≠ "" := fun kv' h => hv kv' (by simp [h])
    by_cases hl : kv.2.length = s.length
    · have hnd : normDist s kv.2 = pyDistance s kv.2 := by simp [normDist, hl]
      have hstep : levStep s (some ds) kv = some (dSet ds (pyDistance s kv.2) kv.1) := by
        show (if kv.2.length = s.length then _ else _) = _
        rw [if_pos hl]
      obtain ⟨dsF, hfold, h1, h2, h3⟩ := ih (dSet ds (pyDistance s kv.2) kv.1) hrest
      refine ⟨dsF, by rw [List.foldl_cons, hstep]; exact hfold, ?_, ?_, ?_⟩
      · intro p hp
        rcases h1 p hp with hin | ⟨kv', hkv', hke⟩
        · rcases mem_dSet hin with hin' | hpe
          · exact Or.inl hin'
          · exact Or.inr ⟨kv, by simp, by rw [hpe], by rw [hpe, hnd]⟩
        · exact Or.inr ⟨kv', by simp [hkv'], hke⟩
      · intro kv' hkv'
        rcases List.mem_cons.mp hkv' with heq | hmem
        · subst heq
          obtain ⟨p, hp, hpk⟩ := dSet_exists_key ds (pyDistance s kv'.2) kv'.1
          obtain ⟨q, hq, hqk⟩ := h3 p hp
          exact ⟨q, hq, by rw [hqk, hpk, hnd]⟩
        · exact h2 kv' hmem
      · intro p hp
        obtain ⟨q, hq, hqk⟩ := dSet_preserves_keys (pyDistance s kv.2) kv.1 hp
        obtain ⟨q', hq', hqk'⟩ := h3 q hq
        exact ⟨q', hq', by rw [hqk', hqk]⟩
    · have hnd : normDist s kv.2 = pyDistance s (expandPat s.length kv.2) := by
        simp [normDist, hl]
      by_cases hmemd : ds.any (fun p => p.1 = pyDistance s (expandPat s.length kv.2))
      · have hstep : levStep s (some ds) kv = some ds := by
          show (if kv.2.length = s.length then _ else _) = _
          rw [if_neg hl, if_neg hlen0, if_pos hmemd]
        obtain ⟨dsF, hfold, h1, h2, h3⟩ := ih ds hrest
        refine ⟨dsF, by rw [List.foldl_cons, hstep]; exact hfold, ?_, ?_, h3⟩
        · intro p hp
          rcases h1 p hp with hin | ⟨kv', hkv', hke⟩
          · exact Or.inl hin
          · exact Or.inr ⟨kv', by simp [hkv'], hke⟩
        · intro kv' hkv'
          rcases List.mem_cons.mp hkv' with heq | hmem
          · subst heq
            simp only [List.any_eq_true, decide_eq_true_eq] at hmemd
            obtain ⟨p, hp, hpk⟩ := hmemd
            obtain ⟨q, hq, hqk⟩ := h3 p hp
            exact ⟨q, hq, by rw [hqk, hpk, hnd]⟩
          · exact h2 kv' hmem
      · have hstep : levStep s (some ds) kv =
            some (dSet ds (pyDistance s (expandPat s.length kv.2)) kv.1) := by
          show (if kv.2.length = s.length then _ else _) = _
          rw [if_neg hl, if_neg hlen0, if_neg hmemd]
        obtain ⟨dsF, hfold, h1, h2, h3⟩ :=
          ih (dSet ds (pyDistance s (expandPat s.length kv.2)) kv.1) hrest
        refine ⟨dsF, by rw [List.foldl_cons, hstep]; exact hfold, ?_, ?_, ?_⟩
        · intro p hp
          rcases h1 p hp with hin | ⟨kv', hkv', hke⟩
          · rcases mem_dSet hin with hin' | hpe
            · exact Or.inl hin'
            · exact Or.inr ⟨kv, by simp, by rw [hpe], by rw [hpe, hnd]⟩
          · exact Or.inr ⟨kv', by simp [hkv'], hke⟩
        · intro kv' hkv'
          rcases List.mem_cons.mp hkv' with heq | hmem
          · subst heq
            obtain ⟨p, hp, hpk⟩ :=
              dSet_exists_key ds (pyDistance s (expandPat s.length kv'.2)) kv'.1
            obtain ⟨q, hq, hqk⟩ := h3 p hp
            exact ⟨q, hq, by rw [hqk, hpk, hnd]⟩
          · exact h2 kv' hmem
        · intro p hp
          obtain ⟨q, hq, hqk⟩ :=
            dSet_preserves_keys (pyDistance s (expandPat s.length kv.2)) kv.1 hp
          obtain ⟨q', hq', hqk'⟩ := h3 q hq
          exact ⟨q', hq', by rw [hqk', hqk]⟩

lemma minKey_spec : ∀ (ds : List (Nat × String)), ds ≠ [] →
    ∃ m, minKey ds = some m ∧ (∃ p ∈ ds, p.1 = m) ∧ ∀ p ∈ ds, m ≤ p.1 := by
  intro ds
  induction ds with
  | nil => intro h; exact absurd rfl h
  | cons p ps ih =>
    intro _
    by_cases hps : ps = []
    · subst hps
      refine ⟨p.1, by simp [minKey], ⟨p, by simp, rfl⟩, ?_⟩
      intro q hq
      rcases List.mem_cons.mp hq with heq | hmem
      · rw [heq]
      · simp at hmem
    · obtain ⟨m, hm, ⟨pm, hpm, hpk⟩, hmin⟩ := ih hps
      refine ⟨min p.1 m, by simp only [minKey]; rw [hm], ?_, ?_⟩
      · rcases le_total p.1 m with h | h
        · exact ⟨p, by simp, (min_eq_left h).symm⟩
        · exact ⟨pm, by simp [hpm], by rw [hpk, min_eq_right h]⟩
      · intro r hr
        rcases List.mem_cons.mp hr with heq | hmem
        · rw [heq]
          exact min_le_left _ _
        · exact le_trans (min_le_right _ _) (hmin r hmem)

/-- The classifier returns a catalog key whose normalized pattern
attains the minimum normalized distance over the whole catalog. -/
lemma levenshtein_spec (s : String) (cands : List (String × String))
    (hne : cands ≠ []) (hv : ∀ kv ∈ cands, kv.2 ≠ "") :
    ∃ k v, levenshtein s cands = some k ∧ (k, v) ∈ cands ∧
      ∀ kv ∈ cands, normDist s v ≤ normDist s kv.2 := by
  obtain ⟨dsF, hfold, h1, h2, _⟩ := levFold_inv s cands [] hv
  obtain ⟨c, hc⟩ := List.exists_mem_of_ne_nil cands hne
  obtain ⟨p0, hp0, _⟩ := h2 c hc
  obtain ⟨m, hmk, ⟨pm, hpm, hpmk⟩, hmin⟩ :=
    minKey_spec dsF (by intro h; rw [h] at hp0; exact absurd hp0 (List.not_mem_nil p0))
  have hfind : (dsF.find? (fun p => p.1 = m)).isSome := by
    rw [List.find?_isSome]
    exact ⟨pm, hpm, by simp [hpmk]⟩
  obtain ⟨a, ha⟩ := Option.isSome_iff_exists.mp hfind
  have hamem : a ∈ dsF := List.mem_of_find?_eq_some ha
  have hak : a.1 = m := by
    have := List.find?_some ha
    simpa using this
  rcases h1 a hamem with habs | ⟨kv, hkv, hke, hkd⟩
  · exact absurd habs (List.not_mem_nil a)
  · refine ⟨a.2, kv.2, ?_, ?_, ?_⟩
    · unfold levenshtein
      rw [hfold]
      show (match minKey dsF with
        | none => none
        | some m => dGet dsF m) = some a.2
      rw [hmk]
      show dGet dsF m = some a.2
      simp [dGet, ha]
    · rw [← hke]
      exact hkv
    · intro kv' hkv'
      obtain ⟨q, hq, hqk⟩ := h2 kv' hkv'
      calc normDist s kv.2 = a.1 := hkd
        _ = m := hak
        _ ≤ q.1 := hmin q hq
        _ = normDist s kv'.2 := hqk

/-- The classifier succeeds on a nonempty catalog of nonempty
patterns. -/
lemma levenshtein_isSome (s : String) (cands : List (String × String))
    (hne : cands ≠ []) (hv : ∀ kv ∈ cands, kv.2 ≠ "") :
    ∃ k, levenshtein s cands = some k := by
  obtain ⟨k, _, hk, _, _⟩ := levenshtein_spec s cands hne hv
  exact ⟨k, hk⟩

lemma meters_levenshtein_some (l : String) :
    ∃ k, levenshtein l POSSIBLE_METERS = some k :=
  levenshtein_isSome l POSSIBLE_METERS (by simp [POSSIBLE_METERS]) (by decide)

lemma guessStanzaType_some (poem : List (List String)) :
    ∃ g, guessStanzaType poem = some (stanzaLengths poem, g) := by
  obtain ⟨k, hk⟩ := levenshtein_isSome (stanzaLengths poem) POSSIBLE_STANZAS
    (by simp [POSSIBLE_STANZAS]) (by decide)
  exact ⟨k, by simp [guessStanzaType, hk]⟩

lemma mapM_meters_some : ∀ (l : List String),
    ∃ ms, optionMap (fun x => levenshtein x POSSIBLE_METERS) l = some ms ∧
      ms.length = l.length := by
  intro l
  induction l with
  | nil => exact ⟨[], rfl, rfl⟩
  | cons x xs ih =>
    obtain ⟨ms, hms, hlen⟩ := ih
    obtain ⟨k, hk⟩ := meters_levenshtein_some x
    refine ⟨k :: ms, ?_, by simp [hlen]⟩
    unfold optionMap
    rw [hk, hms]

lemma perLineMeters_some (cmu : Cmu) (csyl : Csyl) (poem : List (List String)) :
    ∃ ms, perLineMeters cmu csyl poem = some ms ∧
      ms.length = (joinedLines cmu csyl poem).length :=
  mapM_meters_some (joinedLines cmu csyl poem)

/-! Order facts for the python pair maximum. -/

/-- The nonstrict counterpart of the python pair comparison. -/
def lexLe (x y : Nat × String) : Prop :=
  x.1 < y.1 ∨ (x.1 = y.1 ∧ (x.2 = y.2 ∨ pyStrLt x.2 y.2 = true))

lemma listLt_trichotomy : ∀ (a b : List Char),
    listLt a b = true ∨ listLt b a = true ∨ a = b := by
  intro a
  induction a with
  | nil =>
    intro b
    cases b with
    | nil => exact Or.inr (Or.inr rfl)
    | cons y ys => exact Or.inl rfl
  | cons x xs ih =>
    intro b
    cases b with
    | nil => exact Or.inr (Or.inl rfl)
    | cons y ys =>
      rcases lt_trichotomy x y with h | h | h
      · exact Or.inl (by simp [listLt, h])
      · subst h
        rcases ih ys with h' | h' | h'
        · exact Or.inl (by simp [listLt, h'])
        · exact Or.inr (Or.inl (by simp [listLt, h']))
        · exact Or.inr (Or.inr (by rw [h']))
      · exact Or.inr (Or.inl (by simp [listLt, h]))

lemma listLt_trans : ∀ (a b c : List Char),
    listLt a b = true → listLt b c = true → listLt a c = true := by
  intro a
  induction a with
  | nil =>
    intro b c hab hbc
    cases b with
    | nil => simp [listLt] at hab
    | cons y ys =>
      cases c with
      | nil => simp [listLt] at hbc
      | cons z zs => rfl
  | cons x xs ih =>
    intro b c hab hbc
    cases b with
    | nil => simp [listLt] at hab
    | cons y ys =>
      cases c with
      | nil => simp [listLt] at hbc
      | cons z zs =>
        simp only [listLt] at hab hbc ⊢
        by_cases hxy : x < y
        · by_cases hyz : y < z
          · rw [if_pos (lt_trans hxy hyz)]
          · rw [if_neg hyz] at hbc
            by_cases hyz' : y = z
            · rw [← hyz']
              rw [if_pos hxy]
            · rw [if_neg hyz'] at hbc
              simp at hbc
        · rw [if_neg hxy] at hab
          by_cases hxy' : x = y
          · rw [if_pos hxy'] at hab
            subst hxy'
            by_cases hyz : x < z
            · rw [if_pos hyz]
            · rw [if_neg hyz] at hbc ⊢
              by_cases hyz' : x = z
              · rw [if_pos hyz'] at hbc ⊢
                exact ih ys zs hab hbc
              · rw [if_neg hyz'] at hbc
                simp at hbc
          · rw [if_neg hxy'] at hab
            simp at hab

lemma pyStrLt_trichotomy (a b : String) :
    pyStrLt a b = true ∨ pyStrLt b a = true ∨ a = b := by
  rcases listLt_trichotomy a.toList b.toList with h | h | h
  · exact Or.inl h
  · exact Or.inr (Or.inl h)
  · refine Or.inr (Or.inr ?_)
    have hd : a.data = b.data := h
    cases a with | mk da =>
    cases b with | mk db =>
    rw [show da = db from hd]

lemma lexGt_false_le {x y : Nat × String} (h : lexGt x y = false) : lexLe x y := by
  unfold lexGt at h
  simp only [Bool.or_eq_false_iff, Bool.and_eq_false_iff,
    decide_eq_false_iff_not] at h
  obtain ⟨h1, h2⟩ := h
  rcases Nat.lt_or_ge y.1 x.1 with hlt | hge
  · exact absurd hlt h1
  · rcases Nat.lt_or_ge x.1 y.1 with hlt | hge'
    · exact Or.inl hlt
    · have heq : x.1 = y.1 := le_antisymm hge hge'
      refine Or.inr ⟨heq, ?_⟩
      rcases h2 with h2 | h2
      · exact absurd heq h2
      · rcases pyStrLt_trichotomy x.2 y.2 with h' | h' | h'
        · exact Or.inr h'
        · rw [h'] at h2
          simp at h2
        · exact Or.inl h'

lemma lexGt_true_le {x y : Nat × String} (h : lexGt x y = true) : lexLe y x := by
  unfold lexGt at h
  simp only [Bool.or_eq_true, Bool.and_eq_true, decide_eq_true_eq] at h
  rcases h with h | ⟨h1, h2⟩
  · exact Or.inl h
  · exact Or.inr ⟨h1.symm, Or.inr h2⟩

lemma lexLe_refl (x : Nat × String) : lexLe x x :=
  Or.inr ⟨rfl, Or.inl rfl⟩

lemma pyStrLt_trans {a b c : String} (h1 : pyStrLt a b = true)
    (h2 : pyStrLt b c = true) : pyStrLt a c = true :=
  listLt_trans a.toList b.toList c.toList h1 h2

lemma lexLe_trans {x y z : Nat × String} (h1 : lexLe x y) (h2 : lexLe y z) :
    lexLe x z := by
  rcases h1 with h1 | ⟨h1e, h1s⟩
  · rcases h2 with h2 | ⟨h2e, _⟩
    · exact Or.inl (lt_trans h1 h2)
    · exact Or.inl (h2e ▸ h1)
  · rcases h2 with h2 | ⟨h2e, h2s⟩
    · exact Or.inl (h1e ▸ h2)
    · refine Or.inr ⟨h1e.trans h2e, ?_⟩
      rcases h1s with h1s | h1s
      · rw [h1s]
        exact h2s
      · rcases h2s with h2s | h2s
        · rw [← h2s]
          exact Or.inr h1s
        · exact Or.inr (pyStrLt_trans h1s h2s)

lemma foldl_max_spec : ∀ (t : List (Nat × String)) (a : Nat × String),
    (t.foldl (fun acc x => if lexGt x acc then x else acc) a = a ∨
      t.foldl (fun acc x => if lexGt x acc then x else acc) a ∈ t) ∧
    lexLe a (t.foldl (fun acc x => if lexGt x acc then x else acc) a) ∧
    ∀ q ∈ t, lexLe q (t.foldl (fun acc x => if lexGt x acc then x else acc) a) := by
  intro t
  induction t with
  | nil => exact fun a => ⟨Or.inl rfl, lexLe_refl a, by simp⟩
  | cons x xs ih =>
    intro a
    have hstep : (x :: xs).foldl (fun acc x => if lexGt x acc then x else acc) a =
        xs.foldl (fun acc x => if lexGt x acc then x else acc)
          (if lexGt x a then x else a) := rfl
    obtain ⟨hmem, hle, hall⟩ := ih (if lexGt x a then x else a)
    have hax : lexLe a (if lexGt x a then x else a) := by
      by_cases h : lexGt x a
      · rw [if_pos h]
        exact lexGt_true_le h
      · rw [if_neg h]
        exact lexLe_refl a
    have hxx : lexLe x (if lexGt x a then x else a) := by
      by_cases h : lexGt x a
      · rw [if_pos h]
        exact lexLe_refl x
      · rw [if_neg h]
        exact lexGt_false_le (Bool.not_eq_true _ ▸ eq_false_of_ne_true h)
    refine ⟨?_, ?_, ?_⟩
    · rw [hstep]
      rcases hmem with hm | hm

      · rw [hm]
        by_cases h : lexGt x a
        · rw [if_pos h]
          exact Or.inr (by simp)
        · rw [if_neg h]
          exact Or.inl rfl
      · exact Or.inr (by simp [hm])
    · rw [hstep]
      exact lexLe_trans hax hle
    · intro q hq
      rw [hstep]
      rcases List.mem_cons.mp hq with heq | hmemq
      · rw [heq]
        exact lexLe_trans hxx hle
      · exact hall q hmemq

lemma pyMaxPair_spec {l : List (Nat × String)} {p : Nat × String}
    (h : pyMaxPair l = some p) : p ∈ l ∧ ∀ q ∈ l, lexLe q p := by
  cases l with
  | nil => simp [pyMaxPair] at h
  | cons a t =>
    have hp : p = t.foldl (fun acc x => if lexGt x acc then x else acc) a := by
      simpa [pyMaxPair] using h.symm
    obtain ⟨hmem, hle, hall⟩ := foldl_max_spec t a
    subst hp
    constructor
    · rcases hmem with hm | hm
      · rw [hm]
        simp
      · exact List.mem_cons_of_mem a hm
    · intro q hq
      rcases List.mem_cons.mp hq with heq | hmemq
      · rw [heq]
        exact hle
      · exact hall q hmemq

lemma joinedLines_ne_nil {cmu : Cmu} {csyl : Csyl} {poem : List (List String)}
    (h : ∃ line ∈ poem, ∃ w ∈ line, w ≠ "") :
    joinedLines cmu csyl poem ≠ [] := by
  obtain ⟨line, hline, w, hw, hwne⟩ := h
  have hmemf : w ∈ line.filter (fun w => w ≠ "") :=
    List.mem_filter.mpr ⟨hw, by simpa using hwne⟩
  have hsne : (line.filter (fun w => w ≠ "")).map
      (fun w => stress cmu csyl w "primary") ≠ [] := by
    intro hnil
    rw [List.map_eq_nil] at hnil
    rw [hnil] at hmemf
    exact List.not_mem_nil w hmemf
  have hmem1 : (line.filter (fun w => w ≠ "")).map
      (fun w => stress cmu csyl w "primary") ∈ scanscion cmu csyl poem :=
    List.mem_map.mpr ⟨line, hline, rfl⟩
  have hmem2 : (line.filter (fun w => w ≠ "")).map
      (fun w => stress cmu csyl w "primary") ∈
        (scanscion cmu csyl poem).filter (fun l => l ≠ []) :=
    List.mem_filter.mpr ⟨hmem1, by simpa using hsne⟩
  intro hnil
  unfold joinedLines at hnil
  rw [List.map_eq_nil] at hnil
  rw [hnil] at hmem2
  exact List.not_mem_nil _ hmem2

/-- The python maximum of the (count, key) pairs picks a key of
maximal count, lexically largest among keys of that count. -/
lemma guessMeter_majority (cmu : Cmu) (csyl : Csyl)
    (poem : List (List String)) (ms : List String)
    (hms : perLineMeters cmu csyl poem = some ms) (hne : ms ≠ []) :
    ∃ m ll, guessMeter cmu csyl poem =
        some (joinedLines cmu csyl poem, (joinedLines cmu csyl poem).length, ll, m) ∧
      m ∈ ms ∧
      (∀ x ∈ ms, ms.count x ≤ ms.count m) ∧
      (∀ x ∈ ms, ms.count x = ms.count m → x = m ∨ pyStrLt x m = true) := by
  have hdne : ms.dedup ≠ [] := by
    intro h
    rw [List.dedup_eq_nil] at h
    exact hne h
  have hpne : (ms.dedup).map (fun x => (ms.count x, x)) ≠ [] := by
    intro h
    rw [List.map_eq_nil] at h
    exact hdne h
  obtain ⟨best, hbest⟩ : ∃ best,
      pyMaxPair ((ms.dedup).map (fun x => (ms.count x, x))) = some best := by
    cases hp : (ms.dedup).map (fun x => (ms.count x, x)) with
    | nil => exact absurd hp hpne
    | cons a t => exact ⟨_, rfl⟩
  obtain ⟨hmem, hall⟩ := pyMaxPair_spec hbest
  obtain ⟨b, hbd, hbe⟩ := List.mem_map.mp hmem
  have hbm : b ∈ ms := List.mem_dedup.mp hbd
  have hb1 : best.1 = ms.count b := by rw [← hbe]
  have hb2 : best.2 = b := by rw [← hbe]
  refine ⟨best.2, (joinedLines cmu csyl poem).map String.length, ?_, ?_, ?_, ?_⟩
  · unfold guessMeter
    rw [hms]
    show (match pyMaxPair ((ms.dedup).map (fun x => (ms.count x, x))) with
      | none => none
      | some best =>
        let joined := joinedLines cmu csyl poem
        some (joined, joined.length, joined.map String.length, best.2)) =
      some (joinedLines cmu csyl poem, (joinedLines cmu csyl poem).length,
        (joinedLines cmu csyl poem).map String.length, best.2)
    rw [hbest]
  · rw [hb2]
    exact hbm
  · intro x hx
    have hq : (ms.count x, x) ∈ (ms.dedup).map (fun x => (ms.count x, x)) :=
      List.mem_map.mpr ⟨x, List.mem_dedup.mpr hx, rfl⟩
    rcases hall _ hq with hlt | ⟨heq, _⟩
    · rw [hb2, ← hb1]
      exact le_of_lt hlt
    · rw [hb2, ← hb1]
      exact le_of_eq heq
  · intro x hx hcnt
    have hq : (ms.count x, x) ∈ (ms.dedup).map (fun x => (ms.count x, x)) :=
      List.mem_map.mpr ⟨x, List.mem_dedup.mpr hx, rfl⟩
    rcases hall _ hq with hlt | ⟨_, hs⟩
    · rw [hb1] at hlt
      rw [hb2] at hcnt
      exact absurd hcnt (Nat.ne_of_lt hlt)
    · exact hs

/-! Claim theorems. -/

/-- C4: for every nonempty observed string and nonempty catalog of
nonempty patterns, levenshtein returns a catalog key whose pattern,
cyclically expanded and truncated whenever its length differs from
the observed length, attains the minimum edit distance over the
whole catalog (the per-distance bookkeeping with the discard of a
later expanded entry at a recorded distance is part of the
embedded definition). -/
theorem c4_levenshtein_nearest (s : String) (cands : List (String × String))
    (_hs : s ≠ "") (hne : cands ≠ []) (hv : ∀ kv ∈ cands, kv.2 ≠ "") :
    ∃ k v, levenshtein s cands = some k ∧ (k, v) ∈ cands ∧
      ∀ kv ∈ cands, normDist s v ≤ normDist s kv.2 :=
  levenshtein_spec s cands hne hv

/-- Witness for C4 at the observed string 0101010101 over the
meter catalog. -/
theorem c4_levenshtein_nearest_witness :
    ∃ k v, levenshtein "0101010101" POSSIBLE_METERS = some k ∧
      (k, v) ∈ POSSIBLE_METERS ∧
      ∀ kv ∈ POSSIBLE_METERS,
        normDist "0101010101" v ≤ normDist "0101010101" kv.2 :=
  c4_levenshtein_nearest "0101010101" POSSIBLE_METERS (by decide)
    (by simp [POSSIBLE_METERS]) (by decide)

/-- C2 (code bug): for a word absent from the dictionary, stress
with the primary variant returns the empty string, not the
documented fallback of 1 followed by zeros, because the miss
sentinel containing one empty pronunciation is a nonempty (truthy)
list that short-circuits the fallback branch. -/
theorem c2_stress_of_missing_word (cmu : Cmu) (csyl : Csyl) (w : String)
    (h : cmu (pyLower w) = none) :
    stress cmu csyl w "primary" = "" := by
  unfold stress getSyllables
  rw [h]
  rfl

/-- Witness for C2 at a concrete missing word; the claimed value
would be the nonempty string 1. -/
theorem c2_stress_of_missing_word_witness :
    stress cmuNone csylOne "zzzz" "primary" = "" ∧
    "1" ++ pyRepeat "0" (csylOne "zzzz" - 1) = "1" :=
  ⟨c2_stress_of_missing_word cmuNone csylOne "zzzz" rfl, by decide⟩

/-- C9: two words both absent from the dictionary always rhyme, at
every level: each gets the sentinel single empty pronunciation,
the level is reduced to the zero vowel count (or is already
nonpositive), no vowel index is found, and the two full empty
slices compare equal. -/
theorem c9_missing_words_rhyme (cmu : Cmu) (w1 w2 : String) (n : Int)
    (h1 : cmu (pyLower w1) = none) (h2 : cmu (pyLower w2) = none) :
    rhymes cmu w1 w2 n = true := by
  unfold rhymes getSyllables
  rw [h1, h2]
  show (if [[]] = ([] : List Pron) ∨ [[]] = ([] : List Pron) then false
    else rhymesGo [[]] [[]] n) = true
  rw [if_neg (by simp)]
  unfold rhymesGo
  simp [replaceSyllables, getNthLastVowel, gnlvGo, pySuffix]

/-- Witness for C9 at two concrete missing words and level 5. -/
theorem c9_missing_words_rhyme_witness :
    rhymes cmuNone "aaa" "bbb" 5 = true :=
  c9_missing_words_rhyme cmuNone "aaa" "bbb" 5 rfl rfl

/-- C10: on a poem with no nonblank line, guess_meter takes the
maximum of an empty collection, so the public entry point
guess_form reaches the failure branch and returns no label. -/
theorem c10_guess_form_fails_without_lines (cmu : Cmu) (csyl : Csyl)
    (poem : List (List String)) (h : ∀ line ∈ poem, ∀ w ∈ line, w = "") :
    guessForm cmu csyl poem = none := by
  have hscan : ∀ l ∈ scanscion cmu csyl poem, l = [] := by
    intro l hl
    obtain ⟨line, hline, hfe⟩ := List.mem_map.mp hl
    have : line.filter (fun w => w ≠ "") = [] := by
      rw [List.filter_eq_nil]
      intro w hw
      simpa using h line hline w hw
    rw [← hfe, this]
    rfl
  have hjoin : joinedLines cmu csyl poem = [] := by
    unfold joinedLines
    rw [List.map_eq_nil_iff, List.filter_eq_nil]
    intro l hl
    simpa using hscan l hl
  have hper : perLineMeters cmu csyl poem = some [] := by
    unfold perLineMeters
    rw [hjoin]
    rfl
  unfold guessForm
  rw [show guessMeter cmu csyl poem = none by unfold guessMeter; rw [hper]; rfl]

/-- Witness for C10 at the empty poem and at the one-blank-line
poem. -/
theorem c10_guess_form_fails_without_lines_witness :
    guessForm cmuNone csylOne [] = none ∧
    guessForm cmuNone csylOne [[""]] = none :=
  ⟨c10_guess_form_fails_without_lines cmuNone csylOne [] (by simp),
   c10_guess_form_fails_without_lines cmuNone csylOne [[""]] (by decide)⟩

/-- C5: for a poem with at least one nonblank line, guess_meter
succeeds and its overall meter is a most frequent element of the
per-line nearest-meter results, lexically largest among the keys
tied at the maximal count. -/
theorem c5_guess_meter_most_frequent (cmu : Cmu) (csyl : Csyl)
    (poem : List (List String)) (h : ∃ line ∈ poem, ∃ w ∈ line, w ≠ "") :
    ∃ ms m ll, perLineMeters cmu csyl poem = some ms ∧
      guessMeter cmu csyl poem =
        some (joinedLines cmu csyl poem, (joinedLines cmu csyl poem).length, ll, m) ∧
      m ∈ ms ∧
      (∀ x ∈ ms, ms.count x ≤ ms.count m) ∧
      (∀ x ∈ ms, ms.count x = ms.count m → x = m ∨ pyStrLt x m = true) := by
  obtain ⟨ms, hms, hlen⟩ := perLineMeters_some cmu csyl poem
  have hne : ms ≠ [] := by
    intro hnil
    rw [hnil] at hlen
    exact joinedLines_ne_nil h (List.length_eq_zero.mp hlen.symm)
  obtain ⟨m, ll, hgm, hmem, hcnt, hlex⟩ := guessMeter_majority cmu csyl poem ms hms hne
  exact ⟨ms, m, ll, hms, hgm, hmem, hcnt, hlex⟩

/-- Witness for C5 at a one-line poem over the missing-word
dictionary. -/
theorem c5_guess_meter_most_frequent_witness :
    ∃ ms m ll, perLineMeters cmuNone csylOne [["hello"]] = some ms ∧
      guessMeter cmuNone csylOne [["hello"]] =
        some (joinedLines cmuNone csylOne [["hello"]],
          (joinedLines cmuNone csylOne [["hello"]]).length, ll, m) ∧
      m ∈ ms ∧
      (∀ x ∈ ms, ms.count x ≤ ms.count m) ∧
      (∀ x ∈ ms, ms.count x = ms.count m → x = m ∨ pyStrLt x m = true) :=
  c5_guess_meter_most_frequent cmuNone csylOne [["hello"]]
    ⟨["hello"], by simp, "hello", by simp, by decide⟩

/-- C1 (amended): on fourteen nonblank lines guess_form returns
Shakespearean sonnet exactly when (the meter is iambic pentameter
and the rhyme is shakespearean sonnet) or the rhyme is alternate
rhyme — the python conjunction binds only the first disjunct —
and sonnet with unusual meter in every other fourteen line
case. -/
theorem c1_fourteen_line_rule (cmu : Cmu) (csyl : Csyl)
    (poem : List (List String)) (js : List String) (ll : List Nat) (m rs r : String)
    (hm : guessMeter cmu csyl poem = some (js, 14, ll, m))
    (hr : guessRhymeType cmu poem = some (rs, r)) :
    guessForm cmu csyl poem =
      some (if (m = "iambic pentameter" ∧ r = "shakespearean sonnet") ∨
          r = "alternate rhyme" then "Shakespearean sonnet"
        else "sonnet with unusual meter") := by
  obtain ⟨g, hg⟩ := guessStanzaType_some poem
  have hform : guessForm cmu csyl poem = some (formCascade 14 ll m r) := by
    unfold guessForm
    rw [hm]
    show (match guessRhymeType cmu poem with
      | none => none
      | some (_, rhyme) =>
        match guessStanzaType poem with
        | none => none
        | some _ => some (formCascade 14 ll m rhyme)) = _
    rw [hr]
    show (match guessStanzaType poem with
      | none => none
      | some _ => some (formCascade 14 ll m r)) = _
    rw [hg]
  rw [hform]
  congr 1
  by_cases hc : (m = "iambic pentameter" ∧ r = "shakespearean sonnet") ∨
      r = "alternate rhyme"
  · rw [if_pos hc]
    unfold formCascade
    rw [if_neg (by simp), if_neg (by simp), if_neg (by simp), if_neg (by simp),
      if_neg (by simp), if_neg (by simp), if_pos ⟨rfl, hc⟩]
  · rw [if_neg hc]
    unfold formCascade
    rw [if_neg (by simp), if_neg (by simp), if_neg (by simp), if_neg (by simp),
      if_neg (by simp), if_neg (by simp), if_neg (fun hh => hc hh.2), if_pos rfl]

set_option maxRecDepth 400000 in
/-- Counterexample to C1 as stated: a poem with fourteen nonblank
lines whose meter is trochaic tetrameter (not iambic pentameter)
and whose rhyme is alternate rhyme, for which the claim requires
sonnet with unusual meter, yet guess_form returns Shakespearean
sonnet. -/
theorem c1_counterexample :
    guessMeter cmuC1 csylOne poemC1 =
      some (List.replicate 14 "1", 14, List.replicate 14 1, "trochaic tetrameter") ∧
    guessRhymeType cmuC1 poemC1 = some ("ababcdcdefefXXX", "alternate rhyme") ∧
    guessForm cmuC1 csylOne poemC1 = some "Shakespearean sonnet" :=
  ⟨by decide, by decide, by decide⟩

set_option maxRecDepth 400000 in
/-- Witness for C1 at the fourteen line poem with alternate rhyme
and trochaic meter. -/
theorem c1_fourteen_line_rule_witness :
    guessForm cmuC1 csylOne poemC1 = some "Shakespearean sonnet" := by
  have h := c1_fourteen_line_rule cmuC1 csylOne poemC1 (List.replicate 14 "1")
    (List.replicate 14 1) "trochaic tetrameter" "ababcdcdefefXXX" "alternate rhyme"
    (by decide) (by decide)
  rw [if_pos (Or.inr rfl)] at h
  exact h

/-- C8: with exactly eight nonblank lines and guessed rhyme rima,
guess_form returns ottava rima exactly when the first line stress
length lies in the closed interval from 10 to 12; the degenerate
range list (10, 12) * 11 constrains no other line. -/
theorem c8_ottava_checks_first_line_only (cmu : Cmu) (csyl : Csyl)
    (poem : List (List String)) (js : List String) (ll : List Nat) (m rs : String)
    (hm : guessMeter cmu csyl poem = some (js, 8, ll, m))
    (hr : guessRhymeType cmu poem = some (rs, "rima")) :
    (guessForm cmu csyl poem = some "ottava rima" ↔
      (10 ≤ ll.headD 0 ∧ ll.headD 0 ≤ 12)) := by
  obtain ⟨g, hg⟩ := guessStanzaType_some poem
  have hform : guessForm cmu csyl poem = some (formCascade 8 ll m "rima") := by
    unfold guessForm
    rw [hm]
    show (match guessRhymeType cmu poem with
      | none => none
      | some (_, rhyme) =>
        match guessStanzaType poem with
        | none => none
        | some _ => some (formCascade 8 ll m rhyme)) = _
    rw [hr]
    show (match guessStanzaType poem with
      | none => none
      | some _ => some (formCascade 8 ll m "rima")) = _
    rw [hg]
  rw [hform]
  have hgetd : ll.getD 0 0 = ll.headD 0 := by cases ll <;> rfl
  have hwr : (withinRanges ll [List.flatten (List.replicate 11 [10, 12])] = true) ↔
      (10 ≤ ll.headD 0 ∧ ll.headD 0 ≤ 12) := by
    show ((List.range 1).all _ = true) ↔ _
    rw [show List.range 1 = [0] from rfl]
    simp only [List.all_cons, List.all_nil, Bool.and_true, Bool.and_eq_true,
      decide_eq_true_eq]
    rw [hgetd]
    show ((10 ≤ ll.headD 0) ∧ (ll.headD 0 ≤ 12)) ↔ _
    exact Iff.rfl
  by_cases hw : 10 ≤ ll.headD 0 ∧ ll.headD 0 ≤ 12
  · have hcasc : formCascade 8 ll m "rima" = "ottava rima" := by
      unfold formCascade
      rw [if_neg (by simp), if_neg (by simp), if_neg (by simp), if_neg (by simp),
        if_neg (by simp), if_pos ⟨rfl, hwr.mpr hw, rfl⟩]
    rw [hcasc]
    exact iff_of_true rfl hw
  · have hcasc8 : ¬((8 : Nat) = 8 ∧
        withinRanges ll [List.flatten (List.replicate 11 [10, 12])] = true ∧
        ("rima" : String) = "rima") :=
      fun hh => hw (hwr.mp hh.2.1)
    by_cases hmp : m = "iambic pentameter"
    · have hcasc : formCascade 8 ll m "rima" = "blank verse" := by
        unfold formCascade
        rw [if_neg (by simp), if_neg (by simp), if_neg (by simp), if_neg (by simp),
          if_neg (by simp), if_neg hcasc8, if_neg (by simp), if_neg (by simp),
          if_neg (by simp), if_neg (by simp), if_pos hmp, if_neg (by simp),
          if_neg (by simp)]
      rw [hcasc]
      exact iff_of_false (fun hh => absurd (Option.some.inj hh) (by decide)) hw
    · have hcasc : formCascade 8 ll m "rima" = "unknown form" := by
        unfold formCascade
        rw [if_neg (by simp), if_neg (by simp), if_neg (by simp), if_neg (by simp),
          if_neg (by simp), if_neg hcasc8, if_neg (by simp), if_neg (by simp),
          if_neg (by simp), if_neg (by simp), if_neg hmp]
      rw [hcasc]
      exact iff_of_false (fun hh => absurd (Option.some.inj hh) (by decide)) hw

set_option maxRecDepth 400000 in
/-- Witness for C8: an eight line rima poem whose first line has
eleven stress characters while lines two to eight have one; the
form is ottava rima. -/
theorem c8_ottava_checks_first_line_only_witness :
    guessForm cmuC8 csylOne poemC8 = some "ottava rima" :=
  (c8_ottava_checks_first_line_only cmuC8 csylOne poemC8
    ["01010101011", "1", "1", "1", "1", "1", "1", "1"]
    [11, 1, 1, 1, 1, 1, 1, 1] "trochaic tetrameter" "ababcbcX"
    (by decide) (by decide)).mpr (by decide)

/-! Structural lemmas about the rhyme scheme loops. -/

lemma innerStep_length {cmu : Cmu} {poem : List (List String)} {lineno : Nat}
    {st st' : List Char × Int × Bool} {fut : Nat}
    (h : innerStep cmu poem lineno st fut = some st') :
    st'.1.length = st.1.length := by
  unfold innerStep at h
  by_cases h1 : st.1.getD fut 'X' = 'X'
  · rw [if_pos h1] at h
    by_cases h2 : poem.getD lineno [] = [""]
    · rw [if_pos h2] at h
      cases h
      simp [List.length_set]
    · rw [if_neg h2] at h
      by_cases h3 : rhymes cmu (lastWord (poem.getD lineno []))
          (lastWord (poem.getD fut [])) 2 = true
      · rw [if_pos h3] at h
        cases hl : letterAt (if st.2.2 then st.2.1 else st.2.1 + 1) with
        | none =>
          simp only [hl] at h
          exact Option.noConfusion h
        | some c =>
          simp only [hl] at h
          cases h
          simp [List.length_set]
      · rw [if_neg h3] at h
        cases h
        rfl
  · rw [if_neg h1] at h
    cases h
    rfl

lemma innerLoop_length {cmu : Cmu} {poem : List (List String)} {lineno : Nat} :
    ∀ (futs : List Nat) (st st' : List Char × Int × Bool),
      innerLoop cmu poem lineno futs st = some st' →
      st'.1.length = st.1.length := by
  intro futs
  induction futs with
  | nil =>
    intro st st' h
    cases h
    rfl
  | cons f rest ih =>
    intro st st' h
    unfold innerLoop at h
    split at h
    · exact Option.noConfusion h
    · rename_i st1 hst1
      rw [ih st1 st' h, innerStep_length hst1]

lemma outerStep_length {cmu : Cmu} {poem : List (List String)}
    {st st' : List Char × Int} {lineno : Nat}
    (h : outerStep cmu poem st lineno = some st') :
    st'.1.length = st.1.length := by
  unfold outerStep at h
  split at h
  · exact Option.noConfusion h
  · rename_i sch cr mt hloop
    cases h
    exact innerLoop_length _ _ _ hloop

lemma outerLoop_length {cmu : Cmu} {poem : List (List String)} :
    ∀ (ls : List Nat) (st st' : List Char × Int),
      outerLoop cmu poem ls st = some st' → st'.1.length = st.1.length := by
  intro ls
  induction ls with
  | nil =>
    intro st st' h
    cases h
    rfl
  | cons l rest ih =>
    intro st st' h
    unfold outerLoop at h
    split at h
    · exact Option.noConfusion h
    · rename_i st1 hst1
      rw [ih st1 st' h, outerStep_length hst1]

lemma schemeUpTo_length {cmu : Cmu} {poem : List (List String)} {k : Nat}
    {st : List Char × Int} (h : schemeUpTo cmu poem k = some st) :
    st.1.length = poem.length := by
  have := outerLoop_length (List.range k) _ _ h
  simpa using this

lemma rhymeScheme_length {cmu : Cmu} {poem : List (List String)} {s : List Char}
    (h : rhymeScheme cmu poem = some s) : s.length = poem.length := by
  unfold rhymeScheme at h
  cases hst : schemeUpTo cmu poem poem.length with
  | none => rw [hst] at h; exact Option.noConfusion h
  | some st =>
    rw [hst] at h
    cases h
    exact schemeUpTo_length hst

lemma outerLoop_append {cmu : Cmu} {poem : List (List String)} :
    ∀ (l1 l2 : List Nat) (st : List Char × Int),
      outerLoop cmu poem (l1 ++ l2) st =
        match outerLoop cmu poem l1 st with
        | none => none
        | some st' => outerLoop cmu poem l2 st' := by
  intro l1
  induction l1 with
  | nil => intro l2 st; rfl
  | cons l rest ih =>
    intro l2 st
    show outerLoop cmu poem (l :: (rest ++ l2)) st = _
    rw [show outerLoop cmu poem (l :: (rest ++ l2)) st =
        (match outerStep cmu poem st l with
          | none => none
          | some st' => outerLoop cmu poem (rest ++ l2) st') from rfl]
    rw [show outerLoop cmu poem (l :: rest) st =
        (match outerStep cmu poem st l with
          | none => none
          | some st' => outerLoop cmu poem rest st') from rfl]
    cases hs : outerStep cmu poem st l with
    | none => rfl
    | some st1 => exact ih l2 st1

/-- C7 (amended): whenever rhyme_scheme completes — the poem needs
at most the twenty-six rhyme group letters — the returned scheme
has exactly one character per input line. -/
theorem c7_scheme_length_eq_lines (cmu : Cmu) (poem : List (List String))
    (s : List Char) (h : rhymeScheme cmu poem = some s) :
    s.length = poem.length :=
  rhymeScheme_length h

/-- Witness for C7 at a two line rhyming poem. -/
theorem c7_scheme_length_eq_lines_witness :
    rhymeScheme cmu3 [["old"], ["behold"]] = some ['a', 'a'] ∧
    (['a', 'a'] : List Char).length = [["old"], ["behold"]].length :=
  ⟨by decide,
   c7_scheme_length_eq_lines cmu3 [["old"], ["behold"]] ['a', 'a'] (by decide)⟩

set_option maxRecDepth 400000 in
/-- Counterexample to C7 as stated: on a fifty-four line poem with
twenty-seven disjoint rhyme pairs the letter table runs out, the
source raises an index error, and no scheme of any length is
returned. -/
theorem c7_counterexample :
    ¬ ∃ s, rhymeScheme cmuC7 poemC7 = some s ∧ s.length = poemC7.length := by
  intro hex
  obtain ⟨s, hs, _⟩ := hex
  have hnone : rhymeScheme cmuC7 poemC7 = none := by decide
  rw [hnone] at hs
  exact Option.noConfusion hs

/-! Lemmas for the blank line behaviour of rhyme_scheme. -/

lemma letterAt_ne_space {j : Int} {c : Char} (h : letterAt j = some c) :
    c ≠ ' ' ∧ c.toUpper ≠ ' ' := by
  unfold letterAt at h
  split at h
  · exact Option.noConfusion h
  · have hmem : c ∈ rhymeLetters := List.get?_mem h
    have hall : ∀ x ∈ rhymeLetters, x ≠ ' ' ∧ x.toUpper ≠ ' ' := by decide
    exact hall c hmem

lemma innerStep_get?_preserved {cmu : Cmu} {poem : List (List String)}
    {lineno : Nat} {st st' : List Char × Int × Bool} {fut : Nat}
    (h : innerStep cmu poem lineno st fut = some st') (q : Nat)
    (hq1 : q ≠ lineno) (hq2 : q ≠ fut) : st'.1.get? q = st.1.get? q := by
  unfold innerStep at h
  by_cases h1 : st.1.getD fut 'X' = 'X'
  · rw [if_pos h1] at h
    by_cases h2 : poem.getD lineno [] = [""]
    · rw [if_pos h2] at h
      cases h
      exact List.get?_set_ne ' ' st.1 (Ne.symm hq1)
    · rw [if_neg h2] at h
      by_cases h3 : rhymes cmu (lastWord (poem.getD lineno []))
          (lastWord (poem.getD fut [])) 2 = true
      · rw [if_pos h3] at h
        cases hl : letterAt (if st.2.2 then st.2.1 else st.2.1 + 1) with
        | none =>
          simp only [hl] at h
          exact Option.noConfusion h
        | some c =>
          simp only [hl] at h
          cases h
          show ((st.1.set lineno _).set fut _).get? q = st.1.get? q
          rw [List.get?_set_ne _ _ (Ne.symm hq2), List.get?_set_ne _ _ (Ne.symm hq1)]
      · rw [if_neg h3] at h
        cases h
        rfl
  · rw [if_neg h1] at h
    cases h
    rfl

lemma innerStep_no_space {cmu : Cmu} {poem : List (List String)}
    {lineno : Nat} {st st' : List Char × Int × Bool} {fut : Nat}
    (h : innerStep cmu poem lineno st fut = some st') (q : Nat)
    (hq : lineno < q) (hns : st.1.get? q ≠ some ' ') :
    st'.1.get? q ≠ some ' ' := by
  unfold innerStep at h
  by_cases h1 : st.1.getD fut 'X' = 'X'
  · rw [if_pos h1] at h
    by_cases h2 : poem.getD lineno [] = [""]
    · rw [if_pos h2] at h
      cases h
      show (st.1.set lineno ' ').get? q ≠ some ' '
      rw [List.get?_set_ne ' ' st.1 (Nat.ne_of_lt hq)]
      exact hns
    · rw [if_neg h2] at h
      by_cases h3 : rhymes cmu (lastWord (poem.getD lineno []))
          (lastWord (poem.getD fut [])) 2 = true
      · rw [if_pos h3] at h
        cases hl : letterAt (if st.2.2 then st.2.1 else st.2.1 + 1) with
        | none =>
          simp only [hl] at h
          exact Option.noConfusion h
        | some c =>
          simp only [hl] at h
          cases h
          have hc' : (if poem.getD lineno [] = poem.getD fut [] then c.toUpper else c) ≠ ' ' := by
            obtain ⟨hc1, hc2⟩ := letterAt_ne_space hl
            split
            · exact hc2
            · exact hc1
          show ((st.1.set lineno _).set fut _).get? q ≠ some ' '
          by_cases hqf : q = fut
          · subst hqf
            by_cases hlt : q < st.1.length
            · rw [List.get?_set_eq_of_lt _ (by simpa using hlt)]
              intro hcontra
              exact hc' (Option.some.inj hcontra)
            · rw [List.get?_eq_none.mpr (by simp; omega)]
              exact fun hcontra => Option.noConfusion hcontra
          · rw [List.get?_set_ne _ _ (Ne.symm hqf),
              List.get?_set_ne _ _ (Nat.ne_of_lt hq)]
            exact hns
      · rw [if_neg h3] at h
        cases h
        exact hns
  · rw [if_neg h1] at h
    cases h
    exact hns

lemma innerLoop_no_space {cmu : Cmu} {poem : List (List String)} {lineno : Nat} :
    ∀ (futs : List Nat) (st st' : List Char × Int × Bool),
      innerLoop cmu poem lineno futs st = some st' →
      ∀ q, lineno < q → st.1.get? q ≠ some ' ' → st'.1.get? q ≠ some ' ' := by
  intro futs
  induction futs with
  | nil =>
    intro st st' h q _ hns
    cases h
    exact hns
  | cons f rest ih =>
    intro st st' h q hq hns
    unfold innerLoop at h
    split at h
    · exact Option.noConfusion h
    · rename_i st1 hst1
      exact ih st1 st' h q hq (innerStep_no_space hst1 q hq hns)

lemma outerStep_no_space {cmu : Cmu} {poem : List (List String)}
    {st st' : List Char × Int} {l : Nat}
    (h : outerStep cmu poem st l = some st') (q : Nat) (hq : l < q)
    (hns : st.1.get? q ≠ some ' ') : st'.1.get? q ≠ some ' ' := by
  unfold outerStep at h
  split at h
  · exact Option.noConfusion h
  · rename_i sch cr mt hloop
    cases h
    exact innerLoop_no_space _ _ _ hloop q hq hns

lemma innerLoop_get?_preserved {cmu : Cmu} {poem : List (List String)}
    {lineno : Nat} :
    ∀ (futs : List Nat) (st st' : List Char × Int × Bool),
      (∀ f ∈ futs, lineno < f) →
      innerLoop cmu poem lineno futs st = some st' →
      ∀ q, q < lineno → st'.1.get? q = st.1.get? q := by
  intro futs
  induction futs with
  | nil =>
    intro st st' _ h q _
    cases h
    rfl
  | cons f rest ih =>
    intro st st' hf h q hq
    unfold innerLoop at h
    split at h
    · exact Option.noConfusion h
    · rename_i st1 hst1
      have hql : q ≠ lineno := Nat.ne_of_lt hq
      have hqf : q ≠ f := Nat.ne_of_lt (lt_trans hq (hf f (by simp)))
      rw [ih st1 st' (fun g hg => hf g (by simp [hg])) h q hq,
        innerStep_get?_preserved hst1 q hql hqf]

lemma outerStep_get?_preserved {cmu : Cmu} {poem : List (List String)}
    {st st' : List Char × Int} {l : Nat}
    (h : outerStep cmu poem st l = some st') (q : Nat) (hq : q < l) :
    st'.1.get? q = st.1.get? q := by
  unfold outerStep at h
  split at h
  · exact Option.noConfusion h
  · rename_i sch cr mt hloop
    cases h
    refine innerLoop_get?_preserved _ _ _ ?_ hloop q hq
    intro f hf
    have := (List.mem_range'_1.mp hf).1
    omega

lemma outerLoop_get?_preserved {cmu : Cmu} {poem : List (List String)} :
    ∀ (ls : List Nat) (st st' : List Char × Int),
      outerLoop cmu poem ls st = some st' → ∀ q, (∀ l ∈ ls, q < l) →
      st'.1.get? q = st.1.get? q := by
  intro ls
  induction ls with
  | nil =>
    intro st st' h q _
    cases h
    rfl
  | cons l rest ih =>
    intro st st' h q hq
    unfold outerLoop at h
    split at h
    · exact Option.noConfusion h
    · rename_i st1 hst1
      rw [ih st1 st' h q (fun g hg => hq g (by simp [hg])),
        outerStep_get?_preserved hst1 q (hq l (by simp))]

lemma get?_replicate_lt {n q : Nat} {c : Char} (h : q < n) :
    (List.replicate n c).get? q = some c := by
  rw [List.get?_eq_get (by simpa using h)]
  simp [List.get_replicate]

lemma schemeUpTo_succ (cmu : Cmu) (poem : List (List String)) (k : Nat) :
    schemeUpTo cmu poem (k + 1) =
      match schemeUpTo cmu poem k with
      | none => none
      | some st => outerStep cmu poem st k := by
  unfold schemeUpTo
  rw [List.range_succ k, outerLoop_append]
  cases h : outerLoop cmu poem (List.range k) (List.replicate poem.length 'X', -1) with
  | none => rfl
  | some st =>
    show outerLoop cmu poem [k] st = outerStep cmu poem st k
    show (match outerStep cmu poem st k with
      | none => none
      | some st' => outerLoop cmu poem [] st') = outerStep cmu poem st k
    cases outerStep cmu poem st k with
    | none => rfl
    | some st' => rfl

lemma schemeUpTo_no_space {cmu : Cmu} {poem : List (List String)} :
    ∀ (k : Nat) (st : List Char × Int), schemeUpTo cmu poem k = some st →
      ∀ q, k ≤ q → st.1.get? q ≠ some ' ' := by
  intro k
  induction k with
  | zero =>
    intro st h q _
    cases h
    show (List.replicate poem.length 'X').get? q ≠ some ' '
    by_cases hlt : q < poem.length
    · rw [get?_replicate_lt hlt]
      intro hcontra
      exact absurd (Option.some.inj hcontra) (by decide)
    · rw [List.get?_eq_none.mpr (by simp; omega)]
      exact fun hcontra => Option.noConfusion hcontra
  | succ k ih =>
    intro st h q hq
    rw [schemeUpTo_succ] at h
    cases hk : schemeUpTo cmu poem k with
    | none =>
      rw [hk] at h
      exact Option.noConfusion h
    | some stk =>
      rw [hk] at h
      exact outerStep_no_space h q (by omega) (ih stk hk q (by omega))

lemma schemeUpTo_split (cmu : Cmu) (poem : List (List String)) {i n : Nat}
    (h : i ≤ n) :
    schemeUpTo cmu poem n =
      match schemeUpTo cmu poem i with
      | none => none
      | some st => outerLoop cmu poem (List.range' i (n - i)) st := by
  unfold schemeUpTo
  have hsplit : List.range n = List.range i ++ List.range' i (n - i) := by
    rw [List.range_eq_range' n, List.range_eq_range' i]
    have hr := List.range'_append 0 i (n - i) 1
    simp only [Nat.one_mul, Nat.zero_add] at hr
    rw [show n - i + i = n from by omega] at hr
    exact hr.symm
  rw [hsplit, outerLoop_append]

lemma innerLoop_blank (cmu : Cmu) {poem : List (List String)} {lineno : Nat}
    (hb : poem.getD lineno [] = [""]) :
    ∀ (futs : List Nat) (c : List Char) (cr : Int) (mt : Bool),
      innerLoop cmu poem lineno futs (c, cr, mt) =
        some ((if futs.any (fun f => c.getD f 'X' = 'X') then c.set lineno ' '
          else c), cr, mt) := by
  intro futs
  induction futs with
  | nil =>
    intro c cr mt
    show some (c, cr, mt) = _
    rw [if_neg (by simp)]
  | cons f rest ih =>
    intro c cr mt
    show (match innerStep cmu poem lineno (c, cr, mt) f with
      | none => none
      | some st' => innerLoop cmu poem lineno rest st') = _
    by_cases hcf : c.getD f 'X' = 'X'
    · have hstep : innerStep cmu poem lineno (c, cr, mt) f =
          some (c.set lineno ' ', cr, mt) := by
        unfold innerStep
        rw [if_pos hcf, if_pos hb]
      rw [hstep]
      show innerLoop cmu poem lineno rest (c.set lineno ' ', cr, mt) = _
      rw [ih (c.set lineno ' ') cr mt]
      have hrhs : (if (f :: rest).any (fun g => c.getD g 'X' = 'X')
          then c.set lineno ' ' else c) = c.set lineno ' ' :=
        if_pos (by simp only [List.any_cons, Bool.or_eq_true, decide_eq_true_eq]; exact Or.inl hcf)
      rw [hrhs]
      cases hr : rest.any (fun g => (c.set lineno ' ').getD g 'X' = 'X') with
      | false => rw [if_neg (by simp [hr])]
      | true =>
        rw [if_pos (by simp [hr])]
        rw [List.set_set]
    · have hstep : innerStep cmu poem lineno (c, cr, mt) f = some (c, cr, mt) := by
        unfold innerStep
        rw [if_neg hcf]
      rw [hstep]
      show innerLoop cmu poem lineno rest (c, cr, mt) = _
      rw [ih c cr mt]
      have hany : (f :: rest).any (fun g => c.getD g 'X' = 'X') =
          rest.any (fun g => c.getD g 'X' = 'X') := by
        simp only [List.any_cons]
        rw [show (decide (c.getD f 'X' = 'X')) = false by simpa using hcf]
        simp
      rw [hany]

/-- C6 (amended): a blank line is marked with the space character
exactly when, at the moment the blank line is processed, at least
one later line is still unassigned (marked X); in particular a
blank line with no later unassigned line — such as a final blank
line — keeps its previous mark instead of the space. -/
theorem c6_blank_line_space (cmu : Cmu) (poem : List (List String)) (i : Nat)
    (st : List Char × Int) (s : List Char)
    (hline : poem.get? i = some [""])
    (hup : schemeUpTo cmu poem i = some st)
    (hs : rhymeScheme cmu poem = some s) :
    (s.get? i = some ' ' ↔
      ∃ j, i < j ∧ j < poem.length ∧ st.1.get? j = some 'X') := by
  have hi : i < poem.length := by
    rcases List.get?_eq_some.mp hline with ⟨h, _⟩
    exact h
  have hlen : st.1.length = poem.length := schemeUpTo_length hup
  unfold rhymeScheme at hs
  cases hF : schemeUpTo cmu poem poem.length with
  | none =>
    rw [hF] at hs
    exact Option.noConfusion hs
  | some stF =>
    rw [hF] at hs
    have hsF : s = stF.1 := by
      cases hs
      rfl
    have hchain : outerLoop cmu poem (List.range' i (poem.length - i)) st = some stF := by
      rw [schemeUpTo_split cmu poem (le_of_lt hi), hup] at hF
      exact hF
    rw [show poem.length - i = (poem.length - (i + 1)) + 1 from by omega,
      List.range'_succ i (poem.length - (i + 1)) 1] at hchain
    have hbD : poem.getD i [] = [""] := by
      show (poem.get? i).getD [] = [""]
      rw [hline]
      rfl
    have hstep : outerStep cmu poem st i =
        some ((if (List.range' (i + 1) (poem.length - (i + 1))).any
            (fun f => st.1.getD f 'X' = 'X') then st.1.set i ' ' else st.1), st.2) := by
      unfold outerStep
      rw [innerLoop_blank cmu hbD (List.range' (i + 1) (poem.length - (i + 1)))
        st.1 st.2 false]
    have hchain2 : outerLoop cmu poem (List.range' (i + 1) (poem.length - (i + 1)))
        ((if (List.range' (i + 1) (poem.length - (i + 1))).any
            (fun f => st.1.getD f 'X' = 'X') then st.1.set i ' ' else st.1), st.2) =
        some stF := by
      have h1 : outerLoop cmu poem (i :: List.range' (i + 1) (poem.length - (i + 1))) st =
          (match outerStep cmu poem st i with
            | none => none
            | some st' =>
              outerLoop cmu poem (List.range' (i + 1) (poem.length - (i + 1))) st') := rfl
      rw [h1, hstep] at hchain
      exact hchain
    have hpres : stF.1.get? i =
        ((if (List.range' (i + 1) (poem.length - (i + 1))).any
            (fun f => st.1.getD f 'X' = 'X') then st.1.set i ' ' else st.1), st.2).1.get? i := by
      apply outerLoop_get?_preserved _ _ _ hchain2 i
      intro l hl
      have := (List.mem_range'_1.mp hl).1
      omega
    by_cases hcond : (List.range' (i + 1) (poem.length - (i + 1))).any
        (fun f => st.1.getD f 'X' = 'X') = true
    · have hsp : stF.1.get? i = some ' ' := by
        rw [hpres]
        show (if (List.range' (i + 1) (poem.length - (i + 1))).any
            (fun f => st.1.getD f 'X' = 'X') = true then st.1.set i ' ' else st.1).get? i = _
        rw [if_pos hcond]
        exact List.get?_set_eq_of_lt ' ' (by omega)
      rw [hsF, hsp]
      apply iff_of_true rfl
      rcases List.any_eq_true.mp hcond with ⟨f, hfmem, hfX⟩
      rcases List.mem_range'_1.mp hfmem with ⟨hf1, hf2⟩
      have hflt : f < st.1.length := by omega
      refine ⟨f, by omega, by omega, ?_⟩
      have hgf : st.1.get? f = some (st.1.get ⟨f, hflt⟩) := List.get?_eq_get hflt
      have hgd : st.1.getD f 'X' = st.1.get ⟨f, hflt⟩ := by
        show (st.1.get? f).getD 'X' = _
        rw [hgf]
        rfl
      rw [hgf, ← hgd]
      rw [of_decide_eq_true hfX]
    · have hkeep : stF.1.get? i = st.1.get? i := by
        rw [hpres]
        show (if (List.range' (i + 1) (poem.length - (i + 1))).any
            (fun f => st.1.getD f 'X' = 'X') = true then st.1.set i ' ' else st.1).get? i = _
        rw [if_neg hcond]
      rw [hsF, hkeep]
      apply iff_of_false
      · exact schemeUpTo_no_space i st hup i (le_refl i)
      · intro hex
        obtain ⟨j, hij, hjn, hjX⟩ := hex
        apply hcond
        apply List.any_eq_true.mpr
        refine ⟨j, List.mem_range'_1.mpr ⟨by omega, by omega⟩, ?_⟩
        apply decide_eq_true
        show (st.1.get? j).getD 'X' = 'X'
        rw [hjX]
        rfl

/-- Witness for C6: a poem whose first line is blank and whose
second line is unassigned when the blank is processed; the blank
maps to the space character. -/
theorem c6_blank_line_space_witness :
    rhymeScheme cmu3 [[""], ["kate"]] = some [' ', 'X'] ∧
    ([' ', 'X'] : List Char).get? 0 = some ' ' := by
  refine ⟨by decide, ?_⟩
  have h := c6_blank_line_space cmu3 [[""], ["kate"]] 0 (['X', 'X'], -1) [' ', 'X']
    (by decide) (by decide) (by decide)
  exact h.mpr ⟨1, by omega, by decide, by decide⟩

/-- Counterexample to C6 as stated: in the poem consisting of a
single blank line there is no later line, so the blank line keeps
the sentinel X and is not marked with the space character. -/
theorem c6_counterexample :
    rhymeScheme cmuNone [[""]] = some ['X'] ∧
    (['X'] : List Char).get? 0 ≠ some ' ' :=
  ⟨by decide, by decide⟩

/-! Lemmas about the backward vowel scan, for the symmetry of
rhymes. -/

lemma gnlvGo_ge {n : Int} : ∀ (l : List String) (cnt : Int) (i j : Nat),
    gnlvGo n l cnt i = some j → i ≤ j := by
  intro l
  induction l with
  | nil =>
    intro cnt i j h
    exact Option.noConfusion h
  | cons x xs ih =>
    intro cnt i j h
    unfold gnlvGo at h
    by_cases hv : isVowelSym x = true
    · rw [if_pos hv] at h
      by_cases he : cnt + 1 = n
      · rw [if_pos he] at h
        cases h
        exact le_refl _
      · rw [if_neg he] at h
        exact le_trans (Nat.le_succ i) (ih (cnt + 1) (i + 1) j h)
    · rw [if_neg hv] at h
      exact le_trans (Nat.le_succ i) (ih cnt (i + 1) j h)

lemma gnlvGo_lt {n : Int} : ∀ (l : List String) (cnt : Int) (i j : Nat),
    gnlvGo n l cnt i = some j → j < i + l.length := by
  intro l
  induction l with
  | nil =>
    intro cnt i j h
    exact Option.noConfusion h
  | cons x xs ih =>
    intro cnt i j h
    unfold gnlvGo at h
    by_cases hv : isVowelSym x = true
    · rw [if_pos hv] at h
      by_cases he : cnt + 1 = n
      · rw [if_pos he] at h
        cases h
        simp
      · rw [if_neg he] at h
        have := ih (cnt + 1) (i + 1) j h
        simp only [List.length_cons]
        omega
    · rw [if_neg hv] at h
      have := ih cnt (i + 1) j h
      simp only [List.length_cons]
      omega

lemma gnlvGo_prefix {n : Int} : ∀ (l l' : List String) (cnt : Int) (i j : Nat),
    gnlvGo n l cnt i = some j → l'.take (j + 1 - i) = l.take (j + 1 - i) →
    gnlvGo n l' cnt i = some j := by
  intro l
  induction l with
  | nil =>
    intro l' cnt i j h _
    exact Option.noConfusion h
  | cons x xs ih =>
    intro l' cnt i j h htake
    unfold gnlvGo at h
    by_cases hv : isVowelSym x = true
    · by_cases he : cnt + 1 = n
      · rw [if_pos hv, if_pos he] at h
        cases h
        rw [show i + 1 - i = 1 from by omega] at htake
        cases l' with
        | nil => simp at htake
        | cons y ys =>
          simp only [List.take_succ_cons, List.take_zero] at htake
          cases htake
          unfold gnlvGo
          rw [if_pos hv, if_pos he]
      · rw [if_pos hv, if_neg he] at h
        have hij : i + 1 ≤ j := gnlvGo_ge xs (cnt + 1) (i + 1) j h
        rw [show j + 1 - i = (j - i) + 1 from by omega] at htake
        cases l' with
        | nil => simp at htake
        | cons y ys =>
          simp only [List.take_succ_cons] at htake
          have hy : y = x := (List.cons.inj htake).1
          have hys : ys.take (j - i) = xs.take (j - i) := (List.cons.inj htake).2
          subst hy
          unfold gnlvGo
          rw [if_pos hv, if_neg he]
          exact ih ys (cnt + 1) (i + 1) j h
            (by rw [show j + 1 - (i + 1) = j - i from by omega]; exact hys)
    · rw [if_neg hv] at h
      have hij : i + 1 ≤ j := gnlvGo_ge xs cnt (i + 1) j h
      rw [show j + 1 - i = (j - i) + 1 from by omega] at htake
      cases l' with
      | nil => simp at htake
      | cons y ys =>
        simp only [List.take_succ_cons] at htake
        have hy : y = x := (List.cons.inj htake).1
        have hys : ys.take (j - i) = xs.take (j - i) := (List.cons.inj htake).2
        subst hy
        unfold gnlvGo
        rw [if_neg hv]
        exact ih ys cnt (i + 1) j h
          (by rw [show j + 1 - (i + 1) = j - i from by omega]; exact hys)

lemma gnlvGo_exists (n : Int) : ∀ (l : List String) (cnt : Int) (i : Nat),
    cnt < n → n ≤ cnt + (numVowels l : Int) →
    ∃ j, gnlvGo n l cnt i = some j := by
  intro l
  induction l with
  | nil =>
    intro cnt i hlt hle
    simp [numVowels] at hle
    omega
  | cons x xs ih =>
    intro cnt i hlt hle
    unfold gnlvGo
    by_cases hv : isVowelSym x = true
    · rw [if_pos hv]
      by_cases he : cnt + 1 = n
      · rw [if_pos he]
        exact ⟨i, rfl⟩
      · rw [if_neg he]
        refine ih (cnt + 1) (i + 1) (by omega) ?_
        have hcount : numVowels (x :: xs) = numVowels xs + 1 := by
          simp [numVowels, List.filter_cons, hv]
        rw [hcount] at hle
        push_cast at hle ⊢
        omega
    · rw [if_neg hv]
      refine ih cnt (i + 1) hlt ?_
      have hcount : numVowels (x :: xs) = numVowels xs := by
        simp [numVowels, List.filter_cons, hv]
      rw [hcount] at hle
      exact hle

lemma gnlvGo_none_of_nonpos {n : Int} (hn : n ≤ 0) :
    ∀ (l : List String) (cnt : Int) (i : Nat), 0 ≤ cnt →
      gnlvGo n l cnt i = none := by
  intro l
  induction l with
  | nil => intro cnt i _; rfl
  | cons x xs ih =>
    intro cnt i hc
    unfold gnlvGo
    by_cases hv : isVowelSym x = true
    · rw [if_pos hv, if_neg (by omega)]
      exact ih (cnt + 1) (i + 1) (by omega)
    · rw [if_neg hv]
      exact ih cnt (i + 1) hc

lemma numVowels_reverse (l : List String) : numVowels l.reverse = numVowels l := by
  unfold numVowels
  rw [List.filter_reverse, List.length_reverse]

lemma drop_eq_reverse_take {p : Pron} {i : Nat} (h : i ≤ p.length) :
    p.drop (p.length - i) = (p.reverse.take i).reverse := by
  rw [← List.reverse_reverse (p.drop (p.length - i)), List.reverse_drop]
  rw [show p.length - (p.length - i) = i from by omega]

/-- The trailing-slice match of rhymes is symmetric in the two
pronunciations when neither has fewer vowels than the level. -/
lemma pySuffix_match_symm {a b : Pron} {n : Int}
    (ha : n ≤ (numVowels a : Int)) (_hb : n ≤ (numVowels b : Int))
    (hm : pySuffix a (getNthLastVowel a n) = pySuffix b (getNthLastVowel a n)) :
    pySuffix b (getNthLastVowel b n) = pySuffix a (getNthLastVowel b n) := by
  by_cases hn : n ≤ 0
  · have hna : getNthLastVowel a n = none := gnlvGo_none_of_nonpos hn a.reverse 0 1 (le_refl 0)
    have hnb : getNthLastVowel b n = none := gnlvGo_none_of_nonpos hn b.reverse 0 1 (le_refl 0)
    rw [hna] at hm
    rw [hnb]
    exact hm.symm
  · obtain ⟨i, hia⟩ := gnlvGo_exists n a.reverse 0 1 (by omega)
      (by rw [numVowels_reverse]; omega)
    have hi1 : 1 ≤ i := gnlvGo_ge a.reverse 0 1 i hia
    have hila : i ≤ a.length := by
      have := gnlvGo_lt a.reverse 0 1 i hia
      simp only [List.length_reverse] at this
      omega
    have hgA : getNthLastVowel a n = some i := hia
    rw [hgA] at hm
    have hm' : a.drop (a.length - i) = b.drop (b.length - i) := hm
    have hilb : i ≤ b.length := by
      have hlencong := congrArg List.length hm'
      simp only [List.length_drop] at hlencong
      omega
    have hab : a.reverse.take i = b.reverse.take i := by
      have h1 : (a.reverse.take i).reverse = (b.reverse.take i).reverse := by
        rw [← drop_eq_reverse_take hila, ← drop_eq_reverse_take hilb]
        exact hm'
      have := congrArg List.reverse h1
      simpa using this
    have hgB : getNthLastVowel b n = some i := by
      unfold getNthLastVowel
      exact gnlvGo_prefix a.reverse b.reverse 0 1 i hia
        (by rw [show i + 1 - 1 = i from by omega]; exact hab.symm)
    rw [hgB]
    show b.drop (b.length - i) = a.drop (a.length - i)
    exact hm'.symm

/-- With no level reduction possible, the rhymes scan is the
double existential over pronunciation pairs. -/
lemma rhymesGo_eq_any {prons2 : List Pron} : ∀ (prons1 : List Pron) (n : Int),
    (∀ p ∈ prons1, n ≤ (numVowels (replaceSyllables p) : Int)) →
    rhymesGo prons2 prons1 n =
      prons1.any (fun p1 => prons2.any (fun p2 =>
        pySuffix (replaceSyllables p1) (getNthLastVowel (replaceSyllables p1) n) =
        pySuffix (replaceSyllables p2) (getNthLastVowel (replaceSyllables p1) n))) := by
  intro prons1
  induction prons1 with
  | nil => intro n _; rfl
  | cons s rest ih =>
    intro n h
    have hs := h s (by simp)
    have hred : (if (numVowels (replaceSyllables s) : Int) < n
        then (numVowels (replaceSyllables s) : Int) else n) = n := by
      rw [if_neg (by omega)]
    show (let s' := replaceSyllables s
      let lvl' := if (numVowels s' : Int) < n then (numVowels s' : Int) else n
      let idx := getNthLastVowel s' lvl'
      if prons2.any (fun s2 => pySuffix s' idx = pySuffix (replaceSyllables s2) idx) then
        true
      else rhymesGo prons2 rest lvl') = _
    simp only [hred]
    rw [List.any_cons]
    cases hin : prons2.any (fun s2 =>
        pySuffix (replaceSyllables s) (getNthLastVowel (replaceSyllables s) n) =
        pySuffix (replaceSyllables s2) (getNthLastVowel (replaceSyllables s) n)) with
    | true => simp
    | false =>
      simp only [Bool.false_or]
      have hrec := ih n (fun p hp => h p (by simp [hp]))
      simpa using hrec

/-- C3 (amended): rhymes is symmetric whenever every pronunciation
of each word keeps at least level-many vowels after the phoneme
equivalence normalization, so that the level auto-reduction never
fires; without that proviso the vowel index computed from the
first word only makes the relation asymmetric. -/
theorem c3_rhymes_symmetric (cmu : Cmu) (w1 w2 : String) (n : Int)
    (h1 : ∀ p ∈ getSyllables cmu w1, n ≤ (numVowels (replaceSyllables p) : Int))
    (h2 : ∀ p ∈ getSyllables cmu w2, n ≤ (numVowels (replaceSyllables p) : Int)) :
    rhymes cmu w1 w2 n = rhymes cmu w2 w1 n := by
  unfold rhymes
  by_cases e1 : getSyllables cmu w1 = []
  · rw [if_pos (Or.inl e1), if_pos (Or.inr e1)]
  · by_cases e2 : getSyllables cmu w2 = []
    · rw [if_pos (Or.inr e2), if_pos (Or.inl e2)]
    · rw [if_neg (by tauto), if_neg (by tauto)]
      rw [rhymesGo_eq_any (getSyllables cmu w1) n h1,
        rhymesGo_eq_any (getSyllables cmu w2) n h2]
      rw [Bool.eq_iff_iff]
      simp only [List.any_eq_true, decide_eq_true_eq]
      constructor
      · intro hex
        obtain ⟨p1, hp1, p2, hp2, hm⟩ := hex
        exact ⟨p2, hp2, p1, hp1, pySuffix_match_symm (h1 p1 hp1) (h2 p2 hp2) hm⟩
      · intro hex
        obtain ⟨p2, hp2, p1, hp1, hm⟩ := hex
        exact ⟨p1, hp1, p2, hp2, pySuffix_match_symm (h2 p2 hp2) (h1 p1 hp1) hm⟩

/-- Witness for C3 at level 1 on two dictionary words with one and
two vowels. -/
theorem c3_rhymes_symmetric_witness :
    rhymes cmu3 "old" "behold" 1 = rhymes cmu3 "behold" "old" 1 :=
  c3_rhymes_symmetric cmu3 "old" "behold" 1 (by decide) (by decide)

/-- Counterexample to C3 as stated: at the default level 2 the
monosyllabic word old rhymes with behold but not conversely,
because the vowel index is computed from the first word only and
the level is reduced by the first word vowel count. -/
theorem c3_counterexample :
    rhymes cmu3 "old" "behold" 2 = true ∧
    rhymes cmu3 "behold" "old" 2 = false :=
  ⟨by decide, by decide⟩

end PoetryAnalysis
